import Mathlib

/-!
Verification development for the omndx durable task orchestrator
(`src/omndx/orchestrator.py`).  Each Python component relevant to the
spec claims is shallowly embedded as an executable Lean definition:
pure methods become functions, stateful methods pass their state
explicitly, wall-clock / monotonic times are rational parameters, and
Python exceptions become `Except` / `Option` results.  Floats are
modelled by rationals: every arithmetic step used here (`+`, `-`, `*`,
`/`, `min`, comparisons) is exact in the source's use of them, and no
claim concerns rounding.
-/

namespace Omndx

/-! ## JSON values and a parser for the WAL line format

`WriteAheadLog._read` calls `json.loads` on each line.  `Json` models
the Python values produced by `json.loads`; `jsonParse` models
`json.loads` on the fragment of JSON that the WAL writer emits
(objects, arrays, double-quoted strings without escapes, integer
numerals, `true`/`false`/`null`, with optional spaces).  A line outside
this fragment is malformed for our purposes; every concrete line used
in the theorems below is parsed identically by `json.loads`. -/

inductive Json where
  | null : Json
  | bool (b : Bool) : Json
  | num (n : ℚ) : Json
  | str (s : String) : Json
  | arr (xs : List Json) : Json
  | obj (fields : List (String × Json)) : Json

def chSpace : Char := Char.ofNat 32
def chQuote : Char := Char.ofNat 34
def chComma : Char := Char.ofNat 44
def chMinus : Char := Char.ofNat 45
def chColon : Char := Char.ofNat 58
def chLBrack : Char := Char.ofNat 91
def chBackslash : Char := Char.ofNat 92
def chRBrack : Char := Char.ofNat 93
def chLBrace : Char := Char.ofNat 123
def chRBrace : Char := Char.ofNat 125

def skipWs (cs : List Char) : List Char :=
  cs.dropWhile (fun c => c = chSpace)

/-- Parse a string body after the opening quote; escape sequences are
outside the modelled fragment, so a backslash fails the parse. -/
def pStringBody (cs : List Char) : Option (String × List Char) :=
  let body := cs.takeWhile (fun c => c ≠ chQuote ∧ c ≠ chBackslash)
  match cs.drop body.length with
  | c :: rest => if c = chQuote then some (String.mk body, rest) else none
  | [] => none

def digitsToNat (ds : List Char) : Nat :=
  ds.foldl (fun a c => a * 10 + (c.toNat - 48)) 0

def pIntFrom (cs : List Char) : Option (Json × List Char) :=
  match cs with
  | c :: rest =>
    if c = chMinus then
      let ds := rest.takeWhile Char.isDigit
      if ds = [] then none
      else some (Json.num (-(digitsToNat ds : ℚ)), rest.drop ds.length)
    else
      let ds := cs.takeWhile Char.isDigit
      if ds = [] then none
      else some (Json.num (digitsToNat ds : ℚ), cs.drop ds.length)
  | [] => none

mutual

def pVal (fuel : Nat) (cs : List Char) : Option (Json × List Char) :=
  match fuel with
  | 0 => none
  | f + 1 =>
    match skipWs cs with
    | [] => none
    | c :: rest =>
      if c = chLBrace then
        match skipWs rest with
        | d :: rest2 =>
          if d = chRBrace then some (Json.obj [], rest2)
          else (pMembers f (skipWs rest)).map (fun p => (Json.obj p.1, p.2))
        | [] => none
      else if c = chLBrack then
        match skipWs rest with
        | d :: rest2 =>
          if d = chRBrack then some (Json.arr [], rest2)
          else (pItems f (skipWs rest)).map (fun p => (Json.arr p.1, p.2))
        | [] => none
      else if c = chQuote then
        (pStringBody rest).map (fun p => (Json.str p.1, p.2))
      else if ("true").data.isPrefixOf (c :: rest) then
        some (Json.bool true, (c :: rest).drop 4)
      else if ("false").data.isPrefixOf (c :: rest) then
        some (Json.bool false, (c :: rest).drop 5)
      else if ("null").data.isPrefixOf (c :: rest) then
        some (Json.null, (c :: rest).drop 4)
      else pIntFrom (c :: rest)

def pMembers (fuel : Nat) (cs : List Char) : Option (List (String × Json) × List Char) :=
  match fuel with
  | 0 => none
  | f + 1 =>
    match cs with
    | c :: rest =>
      if c = chQuote then
        match pStringBody rest with
        | some (k, r1) =>
          match skipWs r1 with
          | c2 :: r2 =>
            if c2 = chColon then
              match pVal f r2 with
              | some (v, r3) =>
                match skipWs r3 with
                | c3 :: r4 =>
                  if c3 = chComma then
                    (pMembers f (skipWs r4)).map (fun p => ((k, v) :: p.1, p.2))
                  else if c3 = chRBrace then some ([(k, v)], r4)
                  else none
                | [] => none
              | none => none
            else none
          | [] => none
        | none => none
      else none
    | [] => none

def pItems (fuel : Nat) (cs : List Char) : Option (List Json × List Char) :=
  match fuel with
  | 0 => none
  | f + 1 =>
    match pVal f cs with
    | some (v, r1) =>
      match skipWs r1 with
      | c2 :: r2 =>
        if c2 = chComma then
          (pItems f (skipWs r2)).map (fun p => (v :: p.1, p.2))
        else if c2 = chRBrack then some ([v], r2)
        else none
      | [] => none
    | none => none

end

/-- Model of `json.loads` on one WAL line: the whole line must be a
single JSON value (with optional surrounding spaces). -/
def jsonParse (s : String) : Option Json :=
  match pVal (s.length + 1) s.data with
  | some (v, rest) => if skipWs rest = [] then some v else none
  | none => none

/-! ## WriteAheadLog: load

`load` returns `[]` when the file does not exist (line 172-173), else
reads the whole file, splits it into lines, drops empty lines, and
parses each remaining line with `json.loads`; an exception from any
line propagates (line 176-178).  A file is `Option String`: `none` for
a missing file, `some text` for its full contents. -/

def chNewline : Char := Char.ofNat 10

/-- Split a character list at newline characters (keeping empty pieces,
like `str.split`). -/
def splitNl : List Char → List (List Char)
  | [] => [[]]
  | c :: rest =>
    let r := splitNl rest
    if c = chNewline then [] :: r
    else (c :: r.headD []) :: r.tail

/-- Python's `str.splitlines` on text whose only line breaks are
newline characters: every newline terminates a line, and no empty
final line is produced by a trailing newline. -/
def splitlines (s : String) : List String :=
  match s.data with
  | [] => []
  | cs =>
    let parts := (splitNl cs).map String.mk
    if parts.getLast? = some ("") then parts.dropLast else parts

def walLines (text : String) : List String :=
  (splitlines text).filter (fun l => l ≠ "")

/-- The list comprehension of `_read` (line 178): parse each line in
order; the first `json.loads` failure propagates. -/
def parseLinesE : List String → Except Unit (List Json)
  | [] => Except.ok []
  | l :: ls =>
    match jsonParse l with
    | none => Except.error ()
    | some v =>
      match parseLinesE ls with
      | Except.ok vs => Except.ok (v :: vs)
      | Except.error e => Except.error e

def walRead (text : String) : Except Unit (List Json) :=
  parseLinesE (walLines text)

def walLoad (file : Option String) : Except Unit (List Json) :=
  match file with
  | none => Except.ok []
  | some text => walRead text

/-- Modelled from the spec (for comparison with `walLoad`): "load()
reads entire file, returns records in order.  Malformed trailing line
is ignored (truncated crash); any earlier corrupt record fails
recovery." -/
def specLoad (file : Option String) : Except Unit (List Json) :=
  match file with
  | none => Except.ok []
  | some text =>
    let ls := walLines text
    match ls.getLast? with
    | none => Except.ok []
    | some last =>
      match ls.dropLast.mapM jsonParse with
      | some rs =>
        match jsonParse last with
        | some r => Except.ok (rs ++ [r])
        | none => Except.ok rs
      | none => Except.error ()

/-! ## The priority queue: CPython heapq on `_QueuedTask`

`Orchestrator._queue` is an `asyncio.PriorityQueue`, whose `_put` is
`heapq.heappush` and whose `_get` is `heapq.heappop` on a plain list.
The loops of `heapq._siftdown` / `_siftup` are written with a fuel
argument; the loop index strictly decreases (respectively strictly
increases below `endpos`), so any fuel at least the stated bound runs
the loop to completion, and call sites pass such a bound. -/

/-- `_QueuedTask` (lines 103-106): `@dataclass(order=True)` with
`task_id` marked `field(compare=False)`.  The task id (a `uuid4().hex`
string) is modelled as a number. -/
structure QueuedTask where
  priority : Int
  task_id : Nat
deriving DecidableEq, Inhabited

/-- Python `<` on `_QueuedTask`: `order=True` compares the tuple of
compared fields, which is `(priority,)` alone. -/
def qtLt (a b : QueuedTask) : Bool := a.priority < b.priority

/-- `heapq._siftdown(heap, startpos, pos)` with `newitem = heap[pos]`
passed explicitly (the slot at `pos` is overwritten before being
read). -/
def siftdownAux (newitem : QueuedTask) (heap : List QueuedTask) (startpos pos fuel : Nat) :
    List QueuedTask :=
  match fuel with
  | 0 => heap.set pos newitem
  | f + 1 =>
    if startpos < pos then
      let parentpos := (pos - 1) / 2
      let parent := heap.getD parentpos default
      if qtLt newitem parent then
        siftdownAux newitem (heap.set pos parent) startpos parentpos f
      else heap.set pos newitem
    else heap.set pos newitem

/-- `heapq._siftup(heap, pos)` with `endpos` and `newitem = heap[pos]`
explicit; ends with the `_siftdown(heap, startpos, pos)` call on the
leaf reached. -/
def siftupAux (endpos : Nat) (newitem : QueuedTask) (heap : List QueuedTask)
    (startpos pos fuel : Nat) : List QueuedTask :=
  match fuel with
  | 0 => siftdownAux newitem heap startpos pos pos
  | f + 1 =>
    let childpos := 2 * pos + 1
    if childpos < endpos then
      let rightpos := childpos + 1
      let chosen :=
        if rightpos < endpos ∧ ¬ qtLt (heap.getD childpos default) (heap.getD rightpos default)
        then rightpos else childpos
      siftupAux endpos newitem (heap.set pos (heap.getD chosen default)) startpos chosen f
    else siftdownAux newitem heap startpos pos pos

/-- `heapq.heappush`: append, then sift the new item toward the root. -/
def heappush (heap : List QueuedTask) (item : QueuedTask) : List QueuedTask :=
  siftdownAux item (heap ++ [item]) 0 heap.length heap.length

/-- `heapq.heappop`: pop the last element; if the heap is still
nonempty return the root, move the last element into the root slot and
sift it.  `none` models the `IndexError` on an empty heap (the asyncio
queue only calls it when nonempty). -/
def heappop (heap : List QueuedTask) : Option (QueuedTask × List QueuedTask) :=
  match heap.getLast? with
  | none => none
  | some lastelt =>
    match heap.dropLast with
    | [] => some (lastelt, [])
    | r :: rs =>
      some ((r :: rs).getD 0 default,
        siftupAux (r :: rs).length lastelt ((r :: rs).set 0 lastelt) 0 0 (r :: rs).length)

/-- Repeatedly pop until empty (fuel-bounded); used to observe the
dispatch order of queued tasks. -/
def heapPopAll : Nat → List QueuedTask → List QueuedTask
  | 0, _ => []
  | f + 1, heap =>
    match heappop heap with
    | none => []
    | some (x, h2) => x :: heapPopAll f h2

/-- Priority of the entry at index `i` (a default entry out of range). -/
def prio (h : List QueuedTask) (i : Nat) : Int :=
  (h.getD i default).priority

/-- The min-heap parent/child ordering on priorities: every nonzero
index is at least its parent `(j-1)/2`. -/
def isHeap (h : List QueuedTask) : Prop :=
  ∀ j, 0 < j → j < h.length → prio h ((j - 1) / 2) ≤ prio h j

/-! ## Task records and the WAL record shapes -/

inductive TaskStatus where
  | pending | running | succeeded | failed | cancelled
deriving DecidableEq

/-- `TaskSpec` (lines 89-100).  The `uuid4().hex` id is modelled as a
number drawn from a per-orchestrator counter; payload and result are
opaque Json values. -/
structure TaskRec where
  service : String
  payload : Json
  priority : Int
  id : Nat
  status : TaskStatus
  result : Option Json
  retries : Nat
  start_time : Option ℚ
  end_time : Option ℚ
  deadline : Option ℚ

/-- The three WAL record shapes the orchestrator appends, in structured
form (`asdict` serialization is not needed by the claims below). -/
inductive WalRec where
  | add (task : TaskRec)
  | status (task_id : Nat) (status : TaskStatus)
  | config_override (changes : List (String × Json × Json))

def isTerminal : TaskStatus → Bool
  | .succeeded | .failed | .cancelled => true
  | _ => false

/-- Python dict assignment `m[k] = v` on an insertion-ordered map. -/
def dictSet (m : List (Nat × TaskRec)) (k : Nat) (v : TaskRec) : List (Nat × TaskRec) :=
  if (m.lookup k).isSome then m.map (fun p => if p.1 = k then (k, v) else p)
  else m ++ [(k, v)]

/-- One record of the `_recover` replay loop (lines 579-588): `add`
stores the snapshot, `status` updates an existing record and stamps an
`end_time` on terminal statuses; other events are ignored. -/
def applyRecord (now : ℚ) (tasks : List (Nat × TaskRec)) : WalRec → List (Nat × TaskRec)
  | .add t => dictSet tasks t.id t
  | .status tid st =>
    tasks.map (fun p =>
      if p.1 = tid then
        (p.1, { p.2 with
          status := st,
          end_time := if isTerminal st then (p.2.end_time).orElse (fun _ => some now) else p.2.end_time })
      else p)
  | .config_override _ => tasks

/-- `_recover` (lines 577-592): replay all records, then reset every
non-terminal task to `pending` and re-enqueue it. -/
def recover (records : List WalRec) (tasks0 : List (Nat × TaskRec))
    (queue0 : List QueuedTask) (now : ℚ) : List (Nat × TaskRec) × List QueuedTask :=
  let tasks1 := records.foldl (applyRecord now) tasks0
  let tasks2 := tasks1.map (fun p =>
    if isTerminal p.2.status then p else (p.1, { p.2 with status := TaskStatus.pending }))
  let queue := tasks1.foldl (fun q p =>
    if isTerminal p.2.status then q else heappush q ⟨p.2.priority, p.1⟩) queue0
  (tasks2, queue)

/-! ## Token bucket -/

/-- `_TokenBucket` (lines 134-153); `updated` is a `time.monotonic()`
stamp. -/
structure TokenBucket where
  capacity : ℚ
  refill_rate : ℚ
  tokens : ℚ
  updated : ℚ
deriving DecidableEq

/-- `consume` (lines 144-153): refill for the elapsed time, cap at
capacity, then either deduct or report the wait.  `time.monotonic()`
is the `now` argument; the retry-after is `none` for Python's
`float(inf)` result, reached only when `refill_rate` is zero. -/
def TokenBucket.consume (b : TokenBucket) (now : ℚ) (amount : ℚ) :
    TokenBucket × Bool × Option ℚ :=
  let elapsed := now - b.updated
  let tokens := min b.capacity (b.tokens + elapsed * b.refill_rate)
  if amount ≤ tokens then
    ({ b with tokens := tokens - amount, updated := now }, true, some 0)
  else
    let needed := amount - tokens
    ({ b with tokens := tokens, updated := now }, false,
      if b.refill_rate ≠ 0 then some (needed / b.refill_rate) else none)

/-! ## Circuit breaker -/

/-- `_CircuitState` (lines 109-131). -/
structure CircuitState where
  failures : Nat
  opened_at : Option ℚ
deriving DecidableEq

/-- `allow` (lines 114-122); `time.time()` is the `now` argument.  The
`threshold` parameter is part of the signature but unused, as in the
source. -/
def CircuitState.allow (s : CircuitState) (now : ℚ) (threshold : Nat) (timeout : ℚ) :
    CircuitState × Bool :=
  match s.opened_at with
  | none => (s, true)
  | some t =>
    if timeout < now - t then ({ failures := 0, opened_at := none }, true)
    else (s, false)

/-- `record_success` (lines 124-126). -/
def CircuitState.record_success (_s : CircuitState) : CircuitState :=
  { failures := 0, opened_at := none }

/-- `record_failure` (lines 128-131). -/
def CircuitState.record_failure (s : CircuitState) (now : ℚ) (threshold : Nat) : CircuitState :=
  let failures := s.failures + 1
  { failures := failures,
    opened_at := if threshold ≤ failures ∧ s.opened_at = none then some now else s.opened_at }

/-! ## Retry execution

`_execute_with_retry` (lines 546-575).  `outcome i = true` iff the
`i`-th `svc.run` call returns (raising and timing out are both the
`except Exception` arm); `times i` is the wall clock at the `i`-th
failure, used by `record_failure`.  Backoff sleeps have no modelled
state effect.  Returns `(succeeded, retries, circuit)`; `false` stands
for the function re-raising the last error (or tripping the
`assert` when `retry_attempts = 0`).  Cancellation, which re-raises
without retrying, is outside this claim's scope. -/

def executeRetryGo (outcome : Nat → Bool) (times : Nat → ℚ) (threshold retry_attempts : Nat) :
    Nat → Nat → Nat → CircuitState → Bool × Nat × CircuitState
  | 0, _, retries, c => (false, retries, c)
  | remaining + 1, attempt, retries, c =>
    if outcome attempt then (true, retries, c)
    else
      let retries2 := retries + 1
      let c2 := c.record_failure (times attempt) threshold
      if retry_attempts ≤ attempt + 1 then (false, retries2, c2)
      else executeRetryGo outcome times threshold retry_attempts remaining (attempt + 1) retries2 c2

def executeWithRetry (outcome : Nat → Bool) (times : Nat → ℚ) (threshold retry_attempts : Nat)
    (retries0 : Nat) (c0 : CircuitState) : Bool × Nat × CircuitState :=
  executeRetryGo outcome times threshold retry_attempts retry_attempts 0 retries0 c0

/-! ## Orchestrator state and its transitions

The mutable fields of `Orchestrator` that the claims touch, with each
public entry point and each worker code path as an explicit
transition.  A "worker holds a task" from the moment its queue entry
is popped by `_worker` until the matching `task_done`; entries held
across the circuit-open backoff sleep (`backoff`) and across task
execution (`active`) are kept separately because only the former are
re-enqueued.  Times are parameters of each transition; config values
read inside a path (`circuit_breaker_threshold`, `_timeout`) are also
parameters, since `update_config` may change them at any moment. -/

structure OState where
  services : List String
  tasks : List (Nat × TaskRec)
  queue : List QueuedTask
  backoff : List QueuedTask
  active : List QueuedTask
  circuit : List (String × CircuitState)
  buckets : List (String × TokenBucket)
  wal : List WalRec
  nextId : Nat

def lookupTask (s : OState) (id : Nat) : Option TaskRec :=
  s.tasks.lookup id

def setStatus (tasks : List (Nat × TaskRec)) (id : Nat) (st : TaskStatus) :
    List (Nat × TaskRec) :=
  tasks.map (fun p => if p.1 = id then (p.1, { p.2 with status := st }) else p)

def setRunning (tasks : List (Nat × TaskRec)) (id : Nat) (now : ℚ) :
    List (Nat × TaskRec) :=
  tasks.map (fun p =>
    if p.1 = id then (p.1, { p.2 with status := TaskStatus.running, start_time := some now })
    else p)

def assocSet {β : Type} (m : List (String × β)) (k : String) (v : β) : List (String × β) :=
  m.map (fun p => if p.1 = k then (k, v) else p)

/-- `_circuit_allow` (lines 609-613): `setdefault` a fresh state, call
`allow`, keep its (possibly reset) state. -/
def circuitAllow (s : OState) (service : String) (now : ℚ) (threshold : Nat) (timeout : ℚ) :
    OState × Bool :=
  let c0 := (s.circuit.lookup service).getD ⟨0, none⟩
  let r := c0.allow now threshold timeout
  let circ :=
    if (s.circuit.lookup service).isSome then assocSet s.circuit service r.1
    else s.circuit ++ [(service, r.1)]
  ({ s with circuit := circ }, r.2)

/-- The truthiness test `if task.deadline and time.time() > task.deadline`
(line 483): a deadline of exactly `0.0` is falsy and disables the
check. -/
def deadlineExpired (t : TaskRec) (now : ℚ) : Bool :=
  match t.deadline with
  | some d => decide (d ≠ 0) && decide (d < now)
  | none => false

/-- `add_task` up to and including the enqueue (lines 402-404): the
record is created and stored, the queue entry pushed — the WAL `add`
append (line 405) has not happened yet.  Fresh `uuid4().hex` ids are
modelled by the `nextId` counter. -/
def addTaskEnqueue (s : OState) (service : String) (payload : Json) (priority : Int)
    (deadline : Option ℚ) : OState × TaskRec :=
  let t : TaskRec :=
    { service := service, payload := payload, priority := priority, id := s.nextId,
      status := TaskStatus.pending, result := none, retries := 0,
      start_time := none, end_time := none, deadline := deadline }
  ({ s with
      tasks := s.tasks ++ [(t.id, t)],
      queue := heappush s.queue ⟨priority, t.id⟩,
      nextId := s.nextId + 1 }, t)

/-- `add_task` (lines 389-407).  On a rate-limit denial the
`RuntimeError` carries the computed retry-after (`Except.error`); the
consumed bucket state persists.  Otherwise: store record, enqueue,
append the WAL `add` record, return the id. -/
def addTask (s : OState) (service : String) (payload : Json) (priority : Int)
    (deadline : Option ℚ) (now : ℚ) : OState × Except (Option ℚ) Nat :=
  match s.buckets.lookup service with
  | some bucket =>
    let r := bucket.consume now 1
    let s2 := { s with buckets := assocSet s.buckets service r.1 }
    if r.2.1 then
      let e := addTaskEnqueue s2 service payload priority deadline
      ({ e.1 with wal := e.1.wal ++ [WalRec.add e.2] }, Except.ok e.2.id)
    else (s2, Except.error r.2.2)
  | none =>
    let e := addTaskEnqueue s service payload priority deadline
    ({ e.1 with wal := e.1.wal ++ [WalRec.add e.2] }, Except.ok e.2.id)

/-- `cancel_task` (lines 409-424): pending or running tasks become
`cancelled` with a WAL `status` append; unknown or terminal tasks
return false.  (The queue entry of a cancelled pending task is NOT
removed.) -/
def cancelTask (s : OState) (id : Nat) : OState × Bool :=
  match lookupTask s id with
  | none => (s, false)
  | some t =>
    if t.status = TaskStatus.pending ∨ t.status = TaskStatus.running then
      ({ s with
          tasks := setStatus s.tasks id TaskStatus.cancelled,
          wal := s.wal ++ [WalRec.status id TaskStatus.cancelled] }, true)
    else (s, false)

/-- The worker's deadline branch (lines 483-489): mark `failed`, log,
`task_done` — no WAL append occurs in this branch. -/
def workerDeadlineRes (s : OState) (id : Nat) (rest : List QueuedTask) : OState :=
  { s with queue := rest, tasks := setStatus s.tasks id TaskStatus.failed }

/-- The worker's `finally` block together with the try-arms (lines
524-544): the task record receives its final status, its result on
success, and an `end_time` stamp. -/
def finishTasks (tasks : List (Nat × TaskRec)) (id : Nat) (final : TaskStatus)
    (res : Option Json) (keepRes : Bool) (now : ℚ) : List (Nat × TaskRec) :=
  tasks.map (fun p =>
    if p.1 = id then
      (p.1, { p.2 with
        status := final,
        result := if keepRes then res else p.2.result,
        end_time := some now })
    else p)

/-- One transition of the orchestrator: a public call or one worker
code path, at the granularity of the event loop's suspension points. -/
inductive Step : OState → OState → Prop where
  | submit (s : OState) (service : String) (payload : Json) (priority : Int)
      (deadline : Option ℚ) (now : ℚ) (s2 : OState) (id : Nat)
      (h : addTask s service payload priority deadline now = (s2, Except.ok id)) :
      Step s s2
  | submitDenied (s : OState) (service : String) (payload : Json) (priority : Int)
      (deadline : Option ℚ) (now : ℚ) (s2 : OState) (e : Option ℚ)
      (h : addTask s service payload priority deadline now = (s2, Except.error e)) :
      Step s s2
  | cancel (s : OState) (id : Nat) (s2 : OState) (b : Bool)
      (h : cancelTask s id = (s2, b)) :
      Step s s2
  | workerDiscard (s : OState) (q : QueuedTask) (rest : List QueuedTask)
      (hpop : heappop s.queue = some (q, rest))
      (hgone : lookupTask s q.task_id = none ∨
        ∃ t, lookupTask s q.task_id = some t ∧ t.status = TaskStatus.cancelled) :
      Step s { s with queue := rest }
  | workerDeadline (s : OState) (q : QueuedTask) (rest : List QueuedTask) (t : TaskRec)
      (now : ℚ)
      (hpop : heappop s.queue = some (q, rest))
      (ht : lookupTask s q.task_id = some t) (hnc : t.status ≠ TaskStatus.cancelled)
      (hd : deadlineExpired t now = true) :
      Step s (workerDeadlineRes s q.task_id rest)
  | workerCircuitHold (s : OState) (q : QueuedTask) (rest : List QueuedTask) (t : TaskRec)
      (now : ℚ) (threshold : Nat) (timeout : ℚ)
      (hpop : heappop s.queue = some (q, rest))
      (ht : lookupTask s q.task_id = some t) (hnc : t.status ≠ TaskStatus.cancelled)
      (hd : deadlineExpired t now = false)
      (hcirc : (circuitAllow s t.service now threshold timeout).2 = false) :
      Step s { s with queue := rest, backoff := s.backoff ++ [q] }
  | workerRequeue (s : OState) (q : QueuedTask)
      (hq : q ∈ s.backoff) :
      Step s { s with queue := heappush s.queue q, backoff := s.backoff.erase q }
  | workerNoService (s : OState) (q : QueuedTask) (rest : List QueuedTask) (t : TaskRec)
      (now : ℚ) (threshold : Nat) (timeout : ℚ) (s1 : OState)
      (hpop : heappop s.queue = some (q, rest))
      (ht : lookupTask s q.task_id = some t) (hnc : t.status ≠ TaskStatus.cancelled)
      (hd : deadlineExpired t now = false)
      (hcirc : circuitAllow s t.service now threshold timeout = (s1, true))
      (hsvc : t.service ∉ s.services) :
      Step s { s1 with queue := rest, tasks := setStatus s1.tasks q.task_id TaskStatus.failed }
  | workerBeginRun (s : OState) (q : QueuedTask) (rest : List QueuedTask) (t : TaskRec)
      (now : ℚ) (threshold : Nat) (timeout : ℚ) (s1 : OState)
      (hpop : heappop s.queue = some (q, rest))
      (ht : lookupTask s q.task_id = some t) (hnc : t.status ≠ TaskStatus.cancelled)
      (hd : deadlineExpired t now = false)
      (hcirc : circuitAllow s t.service now threshold timeout = (s1, true))
      (hsvc : t.service ∈ s.services) :
      Step s { s1 with
        queue := rest,
        active := s1.active ++ [q],
        tasks := setRunning s1.tasks q.task_id now }
  | workerFinish (s : OState) (q : QueuedTask) (t : TaskRec) (ok : Bool) (now : ℚ)
      (circuit2 : List (String × CircuitState)) (result : Option Json)
      (hq : q ∈ s.active)
      (ht : lookupTask s q.task_id = some t)
      (hst : t.status = TaskStatus.running ∨ t.status = TaskStatus.cancelled) :
      Step s { s with
        active := s.active.erase q,
        tasks := finishTasks s.tasks q.task_id
          (if t.status = TaskStatus.cancelled then TaskStatus.cancelled
           else if ok then TaskStatus.succeeded else TaskStatus.failed)
          result (decide (t.status ≠ TaskStatus.cancelled) && ok) now,
        circuit := circuit2,
        wal := s.wal ++ [WalRec.status q.task_id
          (if t.status = TaskStatus.cancelled then TaskStatus.cancelled
           else if ok then TaskStatus.succeeded else TaskStatus.failed)] }

/-- Reachability by any number of transitions. -/
def Reach : OState → OState → Prop :=
  Relation.ReflTransGen Step

/-- A fresh orchestrator (lines 299-335): no tasks, empty queue, no
circuit state; buckets built eagerly from config. -/
def initState (services : List String) (buckets : List (String × TokenBucket)) : OState :=
  { services := services, tasks := [], queue := [], backoff := [], active := [],
    circuit := [], buckets := buckets, wal := [], nextId := 0 }

/-- `status()` (lines 372-376): the reported queue depth is
`self._queue.qsize()`, the raw number of heap entries. -/
def statusQueueDepth (s : OState) : Nat :=
  s.queue.length

/-- Count of queue entries naming `id`. -/
def queueCount (s : OState) (id : Nat) : Nat :=
  s.queue.countP (fun q => q.task_id = id)

/-- Count of held entries (backoff or active) naming `id`. -/
def heldCount (s : OState) (id : Nat) : Nat :=
  (s.backoff ++ s.active).countP (fun q => q.task_id = id)

/-- A task that is pending and not currently held by any worker. -/
def isFreePending (s : OState) (p : Nat × TaskRec) : Bool :=
  decide (p.2.status = TaskStatus.pending) && decide (heldCount s p.1 = 0)

/-- The spec's "count of pending task ids not currently held by any
worker". -/
def pendingFree (s : OState) : Nat :=
  s.tasks.countP (isFreePending s)

/-- A queue entry whose task has been cancelled (a stale entry left in
place by `cancel_task`). -/
def isStaleEntry (s : OState) (q : QueuedTask) : Bool :=
  match lookupTask s q.task_id with
  | some t => decide (t.status = TaskStatus.cancelled)
  | none => false

/-- A queue entry whose task is pending. -/
def isPendingEntry (s : OState) (q : QueuedTask) : Bool :=
  match lookupTask s q.task_id with
  | some t => decide (t.status = TaskStatus.pending)
  | none => false

/-- Number of stale (cancelled-task) entries sitting in the queue. -/
def staleQ (s : OState) : Nat :=
  s.queue.countP (isStaleEntry s)

/-- The inductive invariant of the transition system: ids are the
counter's and unique; every queued or backoff-held entry names a
stored task that is pending or cancelled; every active entry names a
stored task; and every pending task has exactly one entry, queued or
held. -/
structure Inv (s : OState) : Prop where
  ids : ∀ p ∈ s.tasks, p.2.id = p.1 ∧ p.1 < s.nextId
  nodup : (s.tasks.map Prod.fst).Nodup
  q_ok : ∀ q ∈ s.queue, ∃ t, lookupTask s q.task_id = some t ∧
      (t.status = TaskStatus.pending ∨ t.status = TaskStatus.cancelled)
  b_ok : ∀ q ∈ s.backoff, ∃ t, lookupTask s q.task_id = some t ∧
      (t.status = TaskStatus.pending ∨ t.status = TaskStatus.cancelled)
  a_ok : ∀ q ∈ s.active, (lookupTask s q.task_id).isSome
  pcount : ∀ id t, lookupTask s id = some t → t.status = TaskStatus.pending →
      queueCount s id + heldCount s id = 1

/-! ## Runtime config overrides

`OrchestratorConfig` (lines 44-86) is a `slots=True` dataclass; its
instance is modelled as the association list of its fields, holding
opaque values (`Json`; `Path` objects appear as their strings, `None`
as `null`, dicts as `obj`).  `update_config` (lines 378-387) guards
each key only with `hasattr(self.config, key)`, which is also true for
class attributes that are not dataclass fields; `setattr` on such a
key raises (`slots=True` leaves no instance dict), modelled as
`Except.error`.  The exact set of those attribute names depends on the
interpreter version (dataclasses gain `__replace__` only in Python
3.13, which also adds `__static_attributes__` and `__firstlineno__`),
so the model takes it as a parameter and the theorems quantify over
it; the source itself defines `from_file` and `__post_init__` in the
class body, putting them in the set on every version. -/

def configFieldNames : List String :=
  [("max_concurrency"), ("retry_attempts"), ("backoff_factor"), ("circuit_breaker_threshold"),
   ("circuit_breaker_timeout"), ("task_timeout"), ("service_rate_limits"),
   ("service_concurrency"), ("autoscale_interval"), ("wal_path"), ("leader_lock_path"),
   ("trace_file"), ("metrics_file"), ("admin_port")]

/-- The fields the spec's configuration table marks runtime-mutable
(✎). -/
def runtimeMutableFieldNames : List String :=
  [("max_concurrency"), ("retry_attempts"), ("backoff_factor"), ("circuit_breaker_threshold"),
   ("circuit_breaker_timeout"), ("task_timeout")]

/-- The non-field class attributes the source itself defines on
`OrchestratorConfig` (lines 66-86): `hasattr` is true for them under
every interpreter version, yet `setattr` raises.  The interpreter adds
further such members (methods and dunders) whose set varies by
version, so the update model below is parameterized over the full
set. -/
def configSourceAttrNames : List String :=
  [("from_file"), ("__post_init__")]

/-- The default `OrchestratorConfig()` after `__post_init__`. -/
def defaultConfig : List (String × Json) :=
  [(("max_concurrency"), Json.num 5), (("retry_attempts"), Json.num 3),
   (("backoff_factor"), Json.num (1/2)), (("circuit_breaker_threshold"), Json.num 5),
   (("circuit_breaker_timeout"), Json.num 30), (("task_timeout"), Json.num 30),
   (("service_rate_limits"), Json.obj []), (("service_concurrency"), Json.obj []),
   (("autoscale_interval"), Json.num (1/2)), (("wal_path"), Json.str ("orchestrator.wal")),
   (("leader_lock_path"), Json.null), (("trace_file"), Json.null),
   (("metrics_file"), Json.null), (("admin_port"), Json.null)]

/-- The loop of `update_config` (lines 380-384), over the overrides in
insertion order.  `attrs` is the interpreter's set of non-field class
attribute names visible to `hasattr` (version-dependent; it contains
`configSourceAttrNames` on every version). -/
def updateConfigGo (attrs : List String) (cfg : List (String × Json))
    (changes : List (String × Json × Json)) :
    List (String × Json) → Except Unit (List (String × Json) × List (String × Json × Json))
  | [] => Except.ok (cfg, changes)
  | (k, v) :: rest =>
    match cfg.lookup k with
    | some old => updateConfigGo attrs (assocSet cfg k v) (changes ++ [(k, old, v)]) rest
    | none =>
      if k ∈ attrs then Except.error ()
      else updateConfigGo attrs cfg changes rest

/-- `update_config` (lines 378-387): apply the overrides, then — when
any change was made — schedule (fire-and-forget `create_task`) a
`config_override` WAL append carrying the old/new values.  Returns the
new config, the changes map, and the scheduled record. -/
def updateConfig (attrs : List String) (cfg : List (String × Json))
    (overrides : List (String × Json)) :
    Except Unit (List (String × Json) × List (String × Json × Json) × Option WalRec) :=
  match updateConfigGo attrs cfg [] overrides with
  | Except.ok (cfg2, changes) =>
    Except.ok (cfg2, changes,
      if changes.isEmpty then none else some (WalRec.config_override changes))
  | Except.error e => Except.error e

/-- Modelled from the spec (§4.9 with §6's ✎ table, for comparison
with `updateConfig`): "for each key that names a known,
runtime-mutable config field, set it atomically and append a
`config_override` WAL record listing old/new values ... Unknown keys
are silently ignored." -/
def specUpdateConfig (cfg : List (String × Json)) (overrides : List (String × Json)) :
    List (String × Json) × List (String × Json × Json) :=
  overrides.foldl
    (fun acc p =>
      if p.1 ∈ runtimeMutableFieldNames then
        (assocSet acc.1 p.1 p.2, acc.2 ++ [(p.1, (acc.1.lookup p.1).getD Json.null, p.2)])
      else acc)
    (cfg, [])

/-- The amended claim's update semantics: apply exactly the keys that
name dataclass fields (runtime-mutable or not), in override order. -/
def fieldsUpdateConfig (cfg : List (String × Json)) (overrides : List (String × Json)) :
    List (String × Json) × List (String × Json × Json) :=
  overrides.foldl
    (fun acc p =>
      match acc.1.lookup p.1 with
      | some old => (assocSet acc.1 p.1 p.2, acc.2 ++ [(p.1, old, p.2)])
      | none => acc)
    (cfg, [])

/-- The freshly created pending record. -/
def newTask (s : OState) (service : String) (payload : Json) (priority : Int)
    (deadline : Option ℚ) : TaskRec :=
  { service := service, payload := payload, priority := priority, id := s.nextId,
    status := TaskStatus.pending, result := none, retries := 0,
    start_time := none, end_time := none, deadline := deadline }

/-! ## Theorems -/

/-- C10: loading a nonexistent WAL file returns the empty record list
rather than failing, and recovery over the empty record list produces
an empty task set and an empty queue. -/
theorem claim_C10 (now : ℚ) :
    walLoad none = Except.ok [] ∧ recover [] [] [] now = ([], []) :=
  ⟨rfl, rfl⟩

/-- C7: `consume(n)` first refills by `(now − updated) × refill_rate`
capped at `capacity`, then either deducts `n` and returns `(true, 0)`,
or deducts nothing and returns `(false, (n − tokens) / refill_rate)`
(stated for a nonzero refill rate; a zero rate yields Python's `inf`,
modelled as `none`). -/
theorem claim_C7 (b : TokenBucket) (now n : ℚ) (hr : b.refill_rate ≠ 0) :
    (n ≤ min b.capacity (b.tokens + (now - b.updated) * b.refill_rate) →
      b.consume now n =
        (⟨b.capacity, b.refill_rate,
          min b.capacity (b.tokens + (now - b.updated) * b.refill_rate) - n, now⟩, true, some 0)) ∧
    (¬ n ≤ min b.capacity (b.tokens + (now - b.updated) * b.refill_rate) →
      b.consume now n =
        (⟨b.capacity, b.refill_rate,
          min b.capacity (b.tokens + (now - b.updated) * b.refill_rate), now⟩, false,
          some ((n - min b.capacity (b.tokens + (now - b.updated) * b.refill_rate)) / b.refill_rate))) := by
  constructor <;> intro h <;> simp [TokenBucket.consume, h, hr]

theorem claim_C7_witness :
    TokenBucket.consume ⟨10, 2, 0, 0⟩ 1 5 =
      (⟨10, 2, 2, 1⟩, false, some (3 / 2)) := by
  have h := (claim_C7 ⟨10, 2, 0, 0⟩ 1 5 (by norm_num)).2 (by norm_num)
  convert h using 2 <;> norm_num


/-- C5: `allow` returns true when `opened_at` is unset; when set it
resets and returns true iff `now − opened_at > timeout`, else false;
`record_success` clears the state; `record_failure` increments
`failures` and opens the circuit at the threshold when not already
open; `threshold = 1` opens on the first failure. -/
theorem claim_C5 (s : CircuitState) (now : ℚ) (threshold : Nat) (timeout t : ℚ) :
    (s.opened_at = none → s.allow now threshold timeout = (s, true)) ∧
    (s.opened_at = some t → now - t > timeout →
      s.allow now threshold timeout = (⟨0, none⟩, true)) ∧
    (s.opened_at = some t → ¬ now - t > timeout →
      s.allow now threshold timeout = (s, false)) ∧
    s.record_success = ⟨0, none⟩ ∧
    s.record_failure now threshold =
      ⟨s.failures + 1,
        if threshold ≤ s.failures + 1 ∧ s.opened_at = none then some now else s.opened_at⟩ ∧
    (CircuitState.record_failure ⟨s.failures, none⟩ now 1).opened_at = some now := by
  refine ⟨?_, ?_, ?_, rfl, rfl, ?_⟩
  · intro h; simp [CircuitState.allow, h]
  · intro h hgt; simp [CircuitState.allow, h, gt_iff_lt.mp hgt]
  · intro h hle
    simp only [CircuitState.allow, h]
    rw [if_neg (by exact fun hc => hle hc)]
  · simp [CircuitState.record_failure]

theorem claim_C5_witness :
    CircuitState.allow ⟨3, none⟩ 100 5 30 = (⟨3, none⟩, true) ∧
    CircuitState.allow ⟨3, some 10⟩ 100 5 30 = (⟨0, none⟩, true) ∧
    CircuitState.allow ⟨3, some 90⟩ 100 5 30 = (⟨3, some 90⟩, false) ∧
    (CircuitState.record_failure ⟨0, none⟩ 7 1).opened_at = some 7 := by
  refine ⟨(claim_C5 ⟨3, none⟩ 100 5 30 0).1 rfl,
    (claim_C5 ⟨3, some 10⟩ 100 5 30 10).2.1 rfl (by norm_num),
    (claim_C5 ⟨3, some 90⟩ 100 5 30 90).2.2.1 rfl (by norm_num),
    (claim_C5 ⟨0, none⟩ 7 1 0 0).2.2.2.2.2⟩


theorem executeRetryGo_succeeds (outcome : Nat → Bool) (times : Nat → ℚ)
    (threshold k : Nat) :
    ∀ remaining attempt retries c j, attempt + remaining = k →
      attempt ≤ j → j < k →
      (∀ i, attempt ≤ i → i < j → outcome i = false) → outcome j = true →
      (executeRetryGo outcome times threshold k remaining attempt retries c).1 = true ∧
      (executeRetryGo outcome times threshold k remaining attempt retries c).2.1 =
        retries + (j - attempt) := by
  intro remaining
  induction remaining with
  | zero => intro attempt retries c j hk haj hjk _ _; omega
  | succ rem ih =>
    intro attempt retries c j hk haj hjk hfail hsucc
    by_cases hja : j = attempt
    · subst hja
      simp [executeRetryGo, hsucc]
    · have hfa : outcome attempt = false := hfail attempt le_rfl (by omega)
      have hklt : ¬ k ≤ attempt + 1 := by omega
      simp only [executeRetryGo, hfa, Bool.false_eq_true, if_false, if_neg hklt]
      have := ih (attempt + 1) (retries + 1)
        ((c.record_failure (times attempt) threshold)) j (by omega) (by omega) hjk
        (fun i h1 h2 => hfail i (by omega) h2) hsucc
      refine ⟨this.1, ?_⟩
      rw [this.2]; omega

theorem executeRetryGo_fails (outcome : Nat → Bool) (times : Nat → ℚ)
    (threshold k : Nat) :
    ∀ remaining attempt retries c, attempt + remaining = k → 1 ≤ remaining →
      (∀ i, attempt ≤ i → i < k → outcome i = false) →
      (executeRetryGo outcome times threshold k remaining attempt retries c).1 = false ∧
      (executeRetryGo outcome times threshold k remaining attempt retries c).2.1 =
        retries + remaining := by
  intro remaining
  induction remaining with
  | zero => intro attempt retries c _ h1; omega
  | succ rem ih =>
    intro attempt retries c hk _ hfail
    have hfa : outcome attempt = false := hfail attempt le_rfl (by omega)
    by_cases hlast : k ≤ attempt + 1
    · have hrem : rem = 0 := by omega
      subst hrem
      simp [executeRetryGo, hfa, hlast]
    · simp only [executeRetryGo, hfa, Bool.false_eq_true, if_false, if_neg hlast]
      have := ih (attempt + 1) (retries + 1)
        (c.record_failure (times attempt) threshold) (by omega) (by omega)
        (fun i h1 h2 => hfail i (by omega) h2)
      refine ⟨this.1, ?_⟩
      rw [this.2]; omega

/-- C4 counterexample: with `retry_attempts = 2` and a handler that
fails on every attempt, the task consumes k = 2 attempts and finishes
with `retries = 2`, not k − 1 = 1. -/
theorem claim_C4_cex :
    (executeWithRetry (fun _ => false) (fun _ => 0) 5 2 0 ⟨0, none⟩).2.1 = 2 ∧
    (2 : Nat) ≠ 2 - 1 := by
  constructor
  · rfl
  · decide

/-- C4 (amended): `retries` counts the failed attempts.  If the first
`j` attempts fail and attempt `j` succeeds (`j < retry_attempts`), the
task ends succeeded with `retries0 + j` retries (so "fails exactly
once then succeeds" gives `retries = 1`); if all `retry_attempts = k ≥
1` attempts fail, the task ends failed with `retries0 + k` retries
(not `k − 1`). -/
theorem claim_C4 (outcome : Nat → Bool) (times : Nat → ℚ) (threshold k retries0 : Nat)
    (c0 : CircuitState) :
    (∀ j, j < k → (∀ i, i < j → outcome i = false) → outcome j = true →
      (executeWithRetry outcome times threshold k retries0 c0).1 = true ∧
      (executeWithRetry outcome times threshold k retries0 c0).2.1 = retries0 + j) ∧
    (1 ≤ k → (∀ i, i < k → outcome i = false) →
      (executeWithRetry outcome times threshold k retries0 c0).1 = false ∧
      (executeWithRetry outcome times threshold k retries0 c0).2.1 = retries0 + k) := by
  constructor
  · intro j hj hfail hsucc
    have := executeRetryGo_succeeds outcome times threshold k k 0 retries0 c0 j
      (by omega) (by omega) hj (fun i _ h2 => hfail i h2) hsucc
    simpa [executeWithRetry] using this
  · intro hk hfail
    have := executeRetryGo_fails outcome times threshold k k 0 retries0 c0
      (by omega) hk (fun i _ h2 => hfail i h2)
    simpa [executeWithRetry] using this

theorem claim_C4_witness :
    (executeWithRetry (fun i => i = 1) (fun _ => 0) 5 3 0 ⟨0, none⟩).2.1 = 0 + 1 ∧
    (executeWithRetry (fun _ => false) (fun _ => 0) 5 2 0 ⟨0, none⟩).2.1 = 0 + 2 := by
  refine ⟨((claim_C4 (fun i => i = 1) (fun _ => 0) 5 3 0 ⟨0, none⟩).1 1 (by decide)
      (by decide) (by decide)).2,
    ((claim_C4 (fun _ => false) (fun _ => 0) 5 2 0 ⟨0, none⟩).2 (by decide)
      (fun i _ => rfl)).2⟩


/-- C6: when the target service's token bucket denies a token,
`add_task` fails with the rate-limit error carrying the computed
retry-after, and no task record is created, nothing is enqueued, and
no WAL record is appended (the bucket's refill accounting is the only
state change). -/
theorem claim_C6 (s : OState) (service : String) (payload : Json) (priority : Int)
    (deadline : Option ℚ) (now : ℚ) (b : TokenBucket)
    (hb : s.buckets.lookup service = some b)
    (hdeny : (b.consume now 1).2.1 = false) :
    (addTask s service payload priority deadline now).2 =
      Except.error (b.consume now 1).2.2 ∧
    (addTask s service payload priority deadline now).1.tasks = s.tasks ∧
    (addTask s service payload priority deadline now).1.queue = s.queue ∧
    (addTask s service payload priority deadline now).1.wal = s.wal := by
  simp [addTask, hb, hdeny]

theorem claim_C6_witness :
    (addTask (initState [] [(("api"), ⟨1, 1, 0, 0⟩)]) ("api") Json.null 0 none 0).2 =
      Except.error ((TokenBucket.consume ⟨1, 1, 0, 0⟩ 0 1).2.2) ∧
    (addTask (initState [] [(("api"), ⟨1, 1, 0, 0⟩)]) ("api") Json.null 0 none 0).1.tasks =
      (initState [] [(("api"), ⟨1, 1, 0, 0⟩)]).tasks ∧
    (addTask (initState [] [(("api"), ⟨1, 1, 0, 0⟩)]) ("api") Json.null 0 none 0).1.queue =
      (initState [] [(("api"), ⟨1, 1, 0, 0⟩)]).queue ∧
    (addTask (initState [] [(("api"), ⟨1, 1, 0, 0⟩)]) ("api") Json.null 0 none 0).1.wal =
      (initState [] [(("api"), ⟨1, 1, 0, 0⟩)]).wal :=
  claim_C6 (initState [] [(("api"), ⟨1, 1, 0, 0⟩)]) ("api") Json.null 0 none 0
    ⟨1, 1, 0, 0⟩ rfl (by norm_num [TokenBucket.consume])



theorem parseLinesE_ok_of_all_parse (ls : List String)
    (h : ∀ l ∈ ls, (jsonParse l).isSome) :
    parseLinesE ls = Except.ok (ls.filterMap jsonParse) := by
  induction ls with
  | nil => rfl
  | cons a as ih =>
    have ha := h a (List.mem_cons_self a as)
    match hv : jsonParse a with
    | none => rw [hv] at ha; simp at ha
    | some v =>
      have ihh := ih (fun l hl => h l (List.mem_cons_of_mem a hl))
      simp [parseLinesE, hv, ihh, List.filterMap_cons]

theorem parseLinesE_error_of_bad (ls : List String)
    (h : ∃ l ∈ ls, jsonParse l = none) :
    parseLinesE ls = Except.error () := by
  induction ls with
  | nil => simp at h
  | cons a as ih =>
    match hv : jsonParse a with
    | none => simp [parseLinesE, hv]
    | some v =>
      obtain ⟨l, hl, hbad⟩ := h
      rcases List.mem_cons.mp hl with rfl | hmem
      · rw [hv] at hbad; cases hbad
      · have := ih ⟨l, hmem, hbad⟩
        simp [parseLinesE, hv, this]

/-- C3 counterexample: a WAL file whose only flaw is a truncated final
line.  The claim (and `specLoad`, its transcription) says `load`
returns the earlier records; the code's `load` raises instead. -/
theorem claim_C3_cex :
    walLoad (some ("\x7b\"event\":\"add\",\"task_id\":1\x7d\n\x7b\"event\"")) =
      Except.error () ∧
    specLoad (some ("\x7b\"event\":\"add\",\"task_id\":1\x7d\n\x7b\"event\"")) =
      Except.ok [Json.obj [(("event"), Json.str ("add")), (("task_id"), Json.num 1)]] ∧
    (Except.error () : Except Unit (List Json)) ≠
      Except.ok [Json.obj [(("event"), Json.str ("add")), (("task_id"), Json.num 1)]] :=
  ⟨rfl, rfl, by simp⟩

/-- C3 (amended): `load()` returns the parsed records in file order
when every nonempty line parses; but a malformed line at ANY position
— the truncated final line included — makes `load()`, and hence
recovery at `start()`, fail. -/
theorem claim_C3 (text : String) :
    ((∀ l ∈ walLines text, (jsonParse l).isSome) →
      walLoad (some text) = Except.ok ((walLines text).filterMap jsonParse)) ∧
    ((∃ l ∈ walLines text, jsonParse l = none) →
      walLoad (some text) = Except.error ()) :=
  ⟨fun h => parseLinesE_ok_of_all_parse (walLines text) h,
   fun h => parseLinesE_error_of_bad (walLines text) h⟩

theorem claim_C3_witness :
    walLoad (some ("\x7b\"a\":1\x7d\n\x7b\"b\":2\x7d")) =
      Except.ok ((walLines ("\x7b\"a\":1\x7d\n\x7b\"b\":2\x7d")).filterMap jsonParse) ∧
    walLoad (some ("\x7b\"a\":1\x7d\n\x7b")) = Except.error () := by
  refine ⟨(claim_C3 ("\x7b\"a\":1\x7d\n\x7b\"b\":2\x7d")).1 ?_, (claim_C3 ("\x7b\"a\":1\x7d\n\x7b")).2 ?_⟩
  · intro l hl
    fin_cases hl <;> rfl
  · exact ⟨("\x7b"), by decide, rfl⟩


theorem lookup_cons_pair {β : Type} (a : String) (b : β) (l : List (String × β)) (k : String) :
    List.lookup k ((a, b) :: l) = if k = a then some b else List.lookup k l := by
  by_cases h : k = a
  · simp [List.lookup, h]
  · simp [List.lookup, h, beq_eq_false_iff_ne.mpr h]

theorem assocSet_cons {β : Type} (x : String × β) (m : List (String × β)) (k : String) (v : β) :
    assocSet (x :: m) k v = (if x.1 = k then (k, v) else x) :: assocSet m k v := rfl

theorem assocSet_lookup_isSome {β : Type} (m : List (String × β)) (k k2 : String) (v : β) :
    ((assocSet m k v).lookup k2).isSome = (m.lookup k2).isSome := by
  induction m with
  | nil => rfl
  | cons x m ih =>
    obtain ⟨a, b⟩ := x
    by_cases ha : a = k
    · subst ha
      rw [assocSet_cons]
      simp only [if_pos rfl, lookup_cons_pair]
      by_cases hk : k2 = a <;> simp [lookup_cons_pair, hk, ih]
    · rw [assocSet_cons]
      simp only [if_neg ha, lookup_cons_pair]
      by_cases hk : k2 = a <;> simp [lookup_cons_pair, hk, ih]

theorem updateConfigGo_fields (attrs : List String) (overrides : List (String × Json)) :
    ∀ (cfg : List (String × Json)) (chs : List (String × Json × Json)),
      (∀ k ∈ overrides.map Prod.fst, (cfg.lookup k).isSome ∨ k ∉ attrs) →
      updateConfigGo attrs cfg chs overrides =
        Except.ok (overrides.foldl
          (fun acc p =>
            match acc.1.lookup p.1 with
            | some old => (assocSet acc.1 p.1 p.2, acc.2 ++ [(p.1, old, p.2)])
            | none => acc)
          (cfg, chs)) := by
  induction overrides with
  | nil => intro cfg chs _; rfl
  | cons p rest ih =>
    intro cfg chs h
    match hl : cfg.lookup p.1 with
    | some old =>
      simp only [updateConfigGo, hl, List.foldl_cons]
      exact ih (assocSet cfg p.1 p.2) (chs ++ [(p.1, old, p.2)])
        (fun k hk => by
          rcases h k (by simp [hk]) with hs | hna
          · left; rw [assocSet_lookup_isSome]; exact hs
          · right; exact hna)
    | none =>
      have hna : p.1 ∉ attrs := by
        rcases h p.1 (by simp) with hs | hna
        · rw [hl] at hs; simp at hs
        · exact hna
      simp only [updateConfigGo, hl, if_neg hna, List.foldl_cons]
      exact ih cfg chs (fun k hk => h k (by simp [hk]))

/-- C9 counterexample: `POST /config` with key `wal_path` — a config
field the spec's table does NOT mark runtime-mutable — is applied and
reported in `changes` by `update_config`, where the claim says exactly
the runtime-mutable keys are applied and all others silently ignored
(`specUpdateConfig`, the claim's transcription, reports no change). -/
theorem claim_C9_cex :
    (match updateConfig configSourceAttrNames defaultConfig
        [(("wal_path"), Json.str ("override.wal"))] with
     | Except.ok r => r.2.1.map Prod.fst
     | Except.error _ => []) = [("wal_path")] ∧
    (specUpdateConfig defaultConfig [(("wal_path"), Json.str ("override.wal"))]).2 = [] ∧
    ("wal_path") ∉ runtimeMutableFieldNames :=
  ⟨rfl, rfl, by decide⟩

/-- C9 (amended): `update_config` applies exactly the keys that name
config dataclass fields — runtime-mutable or not — recording each in
`changes` with its old and new value and scheduling one
`config_override` WAL append listing those changes when any exist;
keys naming no attribute of the config object are silently ignored;
but a key naming a non-field class attribute (such as the
source-defined `from_file`) raises instead of being ignored.  `attrs`
is the interpreter's (version-dependent) set of such attribute names,
quantified over so the statement holds on every version. -/
theorem claim_C9 (attrs : List String) (cfg : List (String × Json))
    (overrides : List (String × Json)) :
    ((∀ k ∈ overrides.map Prod.fst, (cfg.lookup k).isSome ∨ k ∉ attrs) →
      updateConfig attrs cfg overrides =
        Except.ok ((fieldsUpdateConfig cfg overrides).1, (fieldsUpdateConfig cfg overrides).2,
          if (fieldsUpdateConfig cfg overrides).2.isEmpty then none
          else some (WalRec.config_override (fieldsUpdateConfig cfg overrides).2))) ∧
    (∀ k v, cfg.lookup k = none → k ∈ attrs →
      updateConfig attrs cfg ((k, v) :: overrides) = Except.error ()) := by
  constructor
  · intro h
    unfold updateConfig fieldsUpdateConfig
    rw [updateConfigGo_fields attrs overrides cfg [] h]
  · intro k v hnone hattr
    unfold updateConfig updateConfigGo
    rw [hnone]
    simp [hattr]

theorem claim_C9_witness :
    updateConfig configSourceAttrNames defaultConfig
        [(("max_concurrency"), Json.num 2), (("nonsense"), Json.null)] =
      Except.ok
        ((fieldsUpdateConfig defaultConfig
            [(("max_concurrency"), Json.num 2), (("nonsense"), Json.null)]).1,
         (fieldsUpdateConfig defaultConfig
            [(("max_concurrency"), Json.num 2), (("nonsense"), Json.null)]).2,
         if (fieldsUpdateConfig defaultConfig
              [(("max_concurrency"), Json.num 2), (("nonsense"), Json.null)]).2.isEmpty then none
         else some (WalRec.config_override (fieldsUpdateConfig defaultConfig
              [(("max_concurrency"), Json.num 2), (("nonsense"), Json.null)]).2)) ∧
    updateConfig configSourceAttrNames defaultConfig [(("from_file"), Json.null)] =
      Except.error () := by
  refine ⟨(claim_C9 configSourceAttrNames defaultConfig
      [(("max_concurrency"), Json.num 2), (("nonsense"), Json.null)]).1 ?_,
    (claim_C9 configSourceAttrNames defaultConfig []).2 ("from_file") Json.null rfl
      (by decide)⟩
  intro k hk
  fin_cases hk
  · exact Or.inl (by decide)
  · exact Or.inr (by decide)



/-- C1 counterexample: (a) directly after `add_task`'s enqueue (line
404) the task is queued while the WAL holds no record of it — the
`add` append (line 405) comes after the enqueue, not before; (b) the
deadline-elapsed worker branch (lines 483-489) marks the task `failed`
without appending any WAL record: the WAL after the branch equals the
WAL before it. -/
theorem claim_C1_cex :
    (addTaskEnqueue (initState [("api")] []) ("api") Json.null 0 none).1.queue ≠ [] ∧
    (addTaskEnqueue (initState [("api")] []) ("api") Json.null 0 none).1.wal = [] ∧
    heappop (addTask (initState [("api")] []) ("api") Json.null 0 (some 1) 0).1.queue =
      some (⟨0, 0⟩, []) ∧
    ((lookupTask (addTask (initState [("api")] []) ("api") Json.null 0 (some 1) 0).1 0).map
      (fun t => deadlineExpired t 2)) = some true ∧
    (workerDeadlineRes (addTask (initState [("api")] []) ("api") Json.null 0 (some 1) 0).1
        0 []).wal =
      (addTask (initState [("api")] []) ("api") Json.null 0 (some 1) 0).1.wal ∧
    ((lookupTask (workerDeadlineRes
        (addTask (initState [("api")] []) ("api") Json.null 0 (some 1) 0).1 0 []) 0).map
      TaskRec.status) = some TaskStatus.failed := by
  refine ⟨?_, rfl, rfl, ?_, rfl, rfl⟩
  · intro h; cases h
  · rfl

/-- C1 (amended): on the accepted path `add_task` enqueues first and
appends the WAL `add` record last — there is an intermediate state
(`addTaskEnqueue`) in which the task is stored and enqueued but the
WAL is still the caller's; and the deadline-elapsed worker branch
performs no WAL append at all (the claim said the append precedes the
enqueue and that the deadline failure is WAL-logged). -/
theorem claim_C1 (s : OState) (service : String) (payload : Json) (priority : Int)
    (deadline : Option ℚ) (now : ℚ)
    (hfree : s.buckets.lookup service = none ∨
      ∃ b, s.buckets.lookup service = some b ∧ (b.consume now 1).2.1 = true) :
    (∃ sc : OState, sc.wal = s.wal ∧ sc.queue = s.queue ∧ sc.nextId = s.nextId ∧
      (addTaskEnqueue sc service payload priority deadline).1.wal = s.wal ∧
      (addTaskEnqueue sc service payload priority deadline).1.queue =
        heappush s.queue ⟨priority, s.nextId⟩ ∧
      (addTask s service payload priority deadline now).1 =
        { (addTaskEnqueue sc service payload priority deadline).1 with
            wal := s.wal ++ [WalRec.add (addTaskEnqueue sc service payload priority deadline).2] } ∧
      (addTask s service payload priority deadline now).2 = Except.ok s.nextId) ∧
    (∀ (s2 : OState) (id : Nat) (rest : List QueuedTask),
      (workerDeadlineRes s2 id rest).wal = s2.wal) := by
  refine ⟨?_, fun _ _ _ => rfl⟩
  rcases hfree with hnone | ⟨b, hb, hok⟩
  · refine ⟨s, rfl, rfl, rfl, rfl, rfl, ?_, ?_⟩ <;>
      simp [addTask, hnone, addTaskEnqueue]
  · refine ⟨{ s with buckets := assocSet s.buckets service (b.consume now 1).1 }, rfl, rfl, rfl,
      rfl, rfl, ?_, ?_⟩ <;>
      simp [addTask, hb, hok, addTaskEnqueue]

theorem claim_C1_witness :
    (∃ sc : OState, sc.wal = (initState [("api")] []).wal ∧
      sc.queue = (initState [("api")] []).queue ∧ sc.nextId = (initState [("api")] []).nextId ∧
      (addTaskEnqueue sc ("api") Json.null 0 none).1.wal = (initState [("api")] []).wal ∧
      (addTaskEnqueue sc ("api") Json.null 0 none).1.queue =
        heappush (initState [("api")] []).queue ⟨0, (initState [("api")] []).nextId⟩ ∧
      (addTask (initState [("api")] []) ("api") Json.null 0 none 0).1 =
        { (addTaskEnqueue sc ("api") Json.null 0 none).1 with
            wal := (initState [("api")] []).wal ++
              [WalRec.add (addTaskEnqueue sc ("api") Json.null 0 none).2] } ∧
      (addTask (initState [("api")] []) ("api") Json.null 0 none 0).2 =
        Except.ok (initState [("api")] []).nextId) ∧
    (∀ (s2 : OState) (id : Nat) (rest : List QueuedTask),
      (workerDeadlineRes s2 id rest).wal = s2.wal) :=
  claim_C1 (initState [("api")] []) ("api") Json.null 0 none 0 (Or.inl rfl)



theorem getD_set_self (l : List QueuedTask) (i : Nat) (x : QueuedTask) (h : i < l.length) :
    (l.set i x).getD i default = x := by
  simp [List.getD_eq_getElem?_getD, List.getElem?_set_eq_of_lt x h]

theorem getD_set_other (l : List QueuedTask) (i j : Nat) (x : QueuedTask) (h : i ≠ j) :
    (l.set i x).getD j default = l.getD j default := by
  simp [List.getD_eq_getElem?_getD, List.getElem?_set_ne h]

theorem getD_append_left (l l2 : List QueuedTask) (i : Nat) (h : i < l.length) :
    ((l ++ l2).getD i default) = l.getD i default := by
  simp [List.getD_eq_getElem?_getD, List.getElem?_append_left h]

theorem prio_set_self (l : List QueuedTask) (i : Nat) (x : QueuedTask) (h : i < l.length) :
    prio (l.set i x) i = x.priority := by
  unfold prio; rw [getD_set_self l i x h]

theorem prio_set_other (l : List QueuedTask) (i j : Nat) (x : QueuedTask) (h : i ≠ j) :
    prio (l.set i x) j = prio l j := by
  unfold prio; rw [getD_set_other l i j x h]

theorem count_set (l : List QueuedTask) (i : Nat) (x y : QueuedTask) (hi : i < l.length) :
    (l.set i x).count y + (if l.getD i default = y then 1 else 0) =
      l.count y + (if x = y then 1 else 0) := by
  induction l generalizing i with
  | nil => simp at hi
  | cons a as ih =>
    cases i with
    | zero =>
      simp only [List.set_cons_zero, List.getD_cons_zero, List.count_cons]
      by_cases hx : x = y <;> by_cases ha : a = y <;> simp [hx, ha] <;> try omega
    | succ n =>
      have hn : n < as.length := by simpa using hi
      simp only [List.set_cons_succ, List.getD_cons_succ, List.count_cons]
      have := ih n hn
      by_cases hx : x = y <;> by_cases ha : a = y <;> simp [hx, ha] at this ⊢ <;> try omega

theorem set_getD_perm (l : List QueuedTask) (i : Nat) (hi : i < l.length) :
    List.Perm (l.set i (l.getD i default)) l := by
  rw [List.perm_iff_count]
  intro y
  have := count_set l i (l.getD i default) y hi
  omega

theorem set_set_perm (l : List QueuedTask) (p q : Nat) (x : QueuedTask)
    (hp : p < l.length) (hq : q < l.length) (hne : q ≠ p) :
    List.Perm ((l.set p (l.getD q default)).set q x) (l.set p x) := by
  rw [List.perm_iff_count]
  intro y
  have h1 := count_set (l.set p (l.getD q default)) q x y (by simpa using hq)
  have h2 := count_set l p (l.getD q default) y hp
  have h3 := count_set l p x y hp
  rw [getD_set_other l p q _ (fun h => hne h.symm)] at h1
  omega


theorem siftdownAux_length (x : QueuedTask) :
    ∀ (fuel : Nat) (h : List QueuedTask) (s p : Nat),
      (siftdownAux x h s p fuel).length = h.length := by
  intro fuel
  induction fuel with
  | zero => intro h s p; simp [siftdownAux]
  | succ f ih =>
    intro h s p
    unfold siftdownAux
    by_cases hs : s < p
    · by_cases hlt : qtLt x (h.getD ((p - 1) / 2) default)
      · rw [if_pos hs, if_pos hlt, ih]
        simp
      · rw [if_pos hs, if_neg hlt]
        simp
    · rw [if_neg hs]
      simp

theorem siftdownAux_perm (x : QueuedTask) :
    ∀ (fuel : Nat) (h : List QueuedTask) (p : Nat), p < h.length →
      List.Perm (siftdownAux x h 0 p fuel) (h.set p x) := by
  intro fuel
  induction fuel with
  | zero => intro h p _; simp [siftdownAux]
  | succ f ih =>
    intro h p hp
    unfold siftdownAux
    by_cases hs : 0 < p
    · by_cases hlt : qtLt x (h.getD ((p - 1) / 2) default)
      · rw [if_pos hs, if_pos hlt]
        have hpp : (p - 1) / 2 < h.length := by omega
        have hne : (p - 1) / 2 ≠ p := by omega
        refine (ih (h.set p (h.getD ((p - 1) / 2) default)) ((p - 1) / 2)
          (by simpa using hpp)).trans ?_
        exact set_set_perm h p ((p - 1) / 2) x hp hpp hne
      · rw [if_pos hs, if_neg hlt]
    · rw [if_neg hs]

theorem siftupAux_perm (x : QueuedTask) :
    ∀ (fuel : Nat) (h : List QueuedTask) (endpos p : Nat),
      p < h.length → endpos ≤ h.length →
      List.Perm (siftupAux endpos x h 0 p fuel) (h.set p x) := by
  intro fuel
  induction fuel with
  | zero =>
    intro h endpos p hp _
    exact siftdownAux_perm x p h p hp
  | succ f ih =>
    intro h endpos p hp hend
    unfold siftupAux
    by_cases hc : 2 * p + 1 < endpos
    · rw [if_pos hc]
      set c := if 2 * p + 1 + 1 < endpos ∧
          ¬ qtLt (h.getD (2 * p + 1) default) (h.getD (2 * p + 1 + 1) default)
        then 2 * p + 1 + 1 else 2 * p + 1 with hcdef
      have hcb : c < endpos := by
        rw [hcdef]; split
        · omega
        · omega
      have hclen : c < h.length := lt_of_lt_of_le hcb hend
      have hcp : c ≠ p := by rw [hcdef]; split <;> omega
      refine (ih (h.set p (h.getD c default)) endpos c (by simpa using hclen)
        (by simpa using hend)).trans ?_
      exact set_set_perm h p c x hp hclen hcp
    · rw [if_neg hc]
      exact siftdownAux_perm x p h p hp

theorem set_append_last (h : List QueuedTask) (x y : QueuedTask) :
    (h ++ [x]).set h.length y = h ++ [y] := by
  induction h with
  | nil => rfl
  | cons a as ih => simpa using ih

theorem heappush_perm (h : List QueuedTask) (x : QueuedTask) :
    List.Perm (heappush h x) (x :: h) := by
  unfold heappush
  have hlen : h.length < (h ++ [x]).length := by simp
  refine (siftdownAux_perm x h.length (h ++ [x]) h.length hlen).trans ?_
  rw [set_append_last]
  exact List.perm_append_singleton x h


theorem eq_dropLast_append_getLast (h : List QueuedTask) (last : QueuedTask)
    (hgl : h.getLast? = some last) : h = h.dropLast ++ [last] := by
  have hne : h ≠ [] := by intro he; subst he; simp at hgl
  have h0 := List.getLast?_eq_getLast h hne
  rw [hgl] at h0
  have h1 : last = h.getLast hne := Option.some_inj.mp h0
  rw [h1]
  exact (List.dropLast_append_getLast hne).symm

theorem heappop_perm (h h2 : List QueuedTask) (r : QueuedTask)
    (hpop : heappop h = some (r, h2)) : List.Perm (r :: h2) h := by
  unfold heappop at hpop
  cases hgl : h.getLast? with
  | none => rw [hgl] at hpop; cases hpop
  | some last =>
    rw [hgl] at hpop
    have hsplit := eq_dropLast_append_getLast h last hgl
    cases hrest : h.dropLast with
    | nil =>
      rw [hrest] at hpop
      simp only [Option.some.injEq, Prod.mk.injEq] at hpop
      obtain ⟨hr, hh2⟩ := hpop
      subst hr; subst hh2
      rw [hsplit, hrest]
      exact List.Perm.refl _
    | cons a as =>
      rw [hrest] at hpop
      simp only [Option.some.injEq, Prod.mk.injEq] at hpop
      obtain ⟨hr, hh2⟩ := hpop
      have hperm : List.Perm h2 ((a :: as).set 0 last) := by
        rw [← hh2]
        have hplen : (0 : Nat) < ((a :: as).set 0 last).length := by simp
        have := siftupAux_perm last ((a :: as).length) ((a :: as).set 0 last)
          ((a :: as).length) 0 hplen (by simp)
        rw [List.set_set] at this
        exact this
      have hra : r = a := by rw [← hr]; rfl
      rw [hsplit, hrest, hra]
      refine (List.Perm.cons a hperm).trans ?_
      have hset : (a :: as).set 0 last = last :: as := rfl
      rw [hset]
      have h3 : List.Perm (last :: as) (as ++ [last]) :=
        (List.perm_append_singleton last as).symm
      have h4 := List.Perm.cons a h3
      simpa using h4

theorem isHeap_set (h : List QueuedTask) (x : QueuedTask) (p : Nat) (hp : p < h.length)
    (hedge : 0 < p → prio h ((p - 1) / 2) ≤ x.priority)
    (hJ1 : ∀ j, 0 < j → j < h.length → j ≠ p → (j - 1) / 2 ≠ p →
      prio h ((j - 1) / 2) ≤ prio h j)
    (hJ2 : ∀ j, 0 < j → j < h.length → (j - 1) / 2 = p → x.priority ≤ prio h j) :
    isHeap (h.set p x) := by
  intro j hj hjlen
  rw [List.length_set] at hjlen
  by_cases hjp : j = p
  · subst hjp
    have hq : j ≠ (j - 1) / 2 := by omega
    rw [prio_set_other h j ((j - 1) / 2) x hq, prio_set_self h j x hp]
    exact hedge hj
  · have hpj : p ≠ j := fun hh => hjp hh.symm
    by_cases hpar : (j - 1) / 2 = p
    · rw [prio_set_other h p j x hpj, hpar, prio_set_self h p x hp]
      exact hJ2 j hj hjlen hpar
    · have hppar : p ≠ (j - 1) / 2 := fun hh => hpar hh.symm
      rw [prio_set_other h p j x hpj, prio_set_other h p ((j - 1) / 2) x hppar]
      exact hJ1 j hj hjlen hjp hpar

theorem siftdown_isHeap (x : QueuedTask) :
    ∀ (fuel : Nat) (h : List QueuedTask) (p : Nat), p ≤ fuel → p < h.length →
      (∀ j, 0 < j → j < h.length → j ≠ p → (j - 1) / 2 ≠ p →
        prio h ((j - 1) / 2) ≤ prio h j) →
      (∀ j, 0 < j → j < h.length → (j - 1) / 2 = p →
        x.priority ≤ prio h j ∧ (0 < p → prio h ((p - 1) / 2) ≤ prio h j)) →
      isHeap (siftdownAux x h 0 p fuel) := by
  intro fuel
  induction fuel with
  | zero =>
    intro h p hpf hp hJ1 hJ2
    have hp0 : p = 0 := by omega
    subst hp0
    exact isHeap_set h x 0 hp (fun h0 => absurd h0 (by omega)) hJ1
      (fun j hj hjl hpar => (hJ2 j hj hjl hpar).1)
  | succ f ih =>
    intro h p hpf hp hJ1 hJ2
    unfold siftdownAux
    by_cases hs : 0 < p
    · rw [if_pos hs]
      by_cases hlt : qtLt x (h.getD ((p - 1) / 2) default)
      · rw [if_pos hlt]
        have hpplt : (p - 1) / 2 < p := by omega
        have hpplen : (p - 1) / 2 < h.length := by omega
        have hltP : x.priority < prio h ((p - 1) / 2) := by
          simpa [qtLt, prio] using hlt
        apply ih (h.set p (h.getD ((p - 1) / 2) default)) ((p - 1) / 2) (by omega)
          (by simpa using hpplen)
        · intro j hj hjlen hjpp hparpp
          rw [List.length_set] at hjlen
          by_cases hjp : j = p
          · exact absurd (by omega : (j - 1) / 2 = (p - 1) / 2) (by rw [hjp] at hparpp ⊢; exact hparpp)
          · have hpj : p ≠ j := fun hh => hjp hh.symm
            by_cases hparp : (j - 1) / 2 = p
            · rw [prio_set_other h p j _ hpj, hparp, prio_set_self h p _ hp]
              exact (hJ2 j hj hjlen hparp).2 hs
            · have hppj : p ≠ (j - 1) / 2 := fun hh => hparp hh.symm
              rw [prio_set_other h p j _ hpj, prio_set_other h p ((j - 1) / 2) _ hppj]
              exact hJ1 j hj hjlen hjp hparp
        · intro j hj hjlen hparpp
          rw [List.length_set] at hjlen
          constructor
          · by_cases hjp : j = p
            · subst hjp
              rw [prio_set_self h j _ hp]
              exact le_of_lt hltP
            · have hpj : p ≠ j := fun hh => hjp hh.symm
              rw [prio_set_other h p j _ hpj]
              have hs1 : (j - 1) / 2 ≠ p := by omega
              have h2 := hJ1 j hj hjlen hjp hs1
              rw [hparpp] at h2
              exact le_trans (le_of_lt hltP) h2
          · intro hpp0
            have hgp : p ≠ ((p - 1) / 2 - 1) / 2 := by omega
            rw [prio_set_other h p (((p - 1) / 2 - 1) / 2) _ hgp]
            have h1 := hJ1 ((p - 1) / 2) hpp0 hpplen (by omega) (by omega)
            by_cases hjp : j = p
            · subst hjp
              rw [prio_set_self h j _ hp]
              exact h1
            · have hpj : p ≠ j := fun hh => hjp hh.symm
              rw [prio_set_other h p j _ hpj]
              have h2 := hJ1 j hj hjlen hjp (by omega)
              rw [hparpp] at h2
              exact le_trans h1 h2
      · rw [if_neg hlt]
        have hge : prio h ((p - 1) / 2) ≤ x.priority := by
          simpa [qtLt, prio, not_lt] using hlt
        exact isHeap_set h x p hp (fun _ => hge) hJ1
          (fun j hj hjl hpar => (hJ2 j hj hjl hpar).1)
    · rw [if_neg hs]
      have hp0 : p = 0 := by omega
      subst hp0
      exact isHeap_set h x 0 hp (fun h0 => absurd h0 (by omega)) hJ1
        (fun j hj hjl hpar => (hJ2 j hj hjl hpar).1)


theorem heappush_isHeap (h : List QueuedTask) (x : QueuedTask) (hh : isHeap h) :
    isHeap (heappush h x) := by
  unfold heappush
  apply siftdown_isHeap x h.length (h ++ [x]) h.length le_rfl (by simp)
  · intro j hj hjlen hjn hparn
    have hjlt : j < h.length := by
      simp only [List.length_append, List.length_cons, List.length_nil] at hjlen
      omega
    have hparlt : (j - 1) / 2 < h.length := by omega
    rw [prio, prio, getD_append_left h [x] j hjlt, getD_append_left h [x] ((j - 1) / 2) hparlt]
    exact hh j hj hjlt
  · intro j hj hjlen hpar
    simp only [List.length_append, List.length_cons, List.length_nil] at hjlen
    omega

/-- One descending move of the sift loop: the chosen child `c`
replaces the hole at `p`, and the invariants re-establish at `c`. -/
theorem siftup_step (x : QueuedTask) (f : Nat)
    (IH : ∀ (h : List QueuedTask) (p : Nat), h.length - p ≤ f → p < h.length →
      (∀ j, 0 < j → j < h.length → j ≠ p → (j - 1) / 2 ≠ p →
        prio h ((j - 1) / 2) ≤ prio h j) →
      (∀ j, 0 < j → j < h.length → (j - 1) / 2 = p → 0 < p →
        prio h ((p - 1) / 2) ≤ prio h j) →
      isHeap (siftupAux h.length x h 0 p f))
    (h : List QueuedTask) (p c : Nat)
    (hp : p < h.length)
    (hcform : c = 2 * p + 1 ∨ c = 2 * p + 2)
    (hcb : c < h.length)
    (hfuel : h.length - p ≤ f + 1)
    (hJ1 : ∀ j, 0 < j → j < h.length → j ≠ p → (j - 1) / 2 ≠ p →
      prio h ((j - 1) / 2) ≤ prio h j)
    (hK : ∀ j, 0 < j → j < h.length → (j - 1) / 2 = p → 0 < p →
      prio h ((p - 1) / 2) ≤ prio h j)
    (hsel : ∀ s, 0 < s → s < h.length → (s - 1) / 2 = p → s ≠ c →
      prio h c ≤ prio h s) :
    isHeap (siftupAux h.length x (h.set p (h.getD c default)) 0 c f) := by
  have hcpar : (c - 1) / 2 = p := by omega
  have hc0 : 0 < c := by omega
  have hgoal := IH (h.set p (h.getD c default)) c (by simp; omega) (by simpa using hcb) ?_ ?_
  · simpa using hgoal
  · intro j hj hjlen hjc hparc
    rw [List.length_set] at hjlen
    by_cases hjp : j = p
    · subst hjp
      rw [prio_set_other h j ((j - 1) / 2) _ (by omega), prio_set_self h j _ hp]
      exact hK c hc0 hcb hcpar hj
    · have hpj : p ≠ j := fun hh => hjp hh.symm
      by_cases hparp : (j - 1) / 2 = p
      · rw [prio_set_other h p j _ hpj, hparp, prio_set_self h p _ hp]
        exact hsel j hj hjlen hparp hjc
      · have hppj : p ≠ (j - 1) / 2 := fun hh => hparp hh.symm
        rw [prio_set_other h p j _ hpj, prio_set_other h p ((j - 1) / 2) _ hppj]
        exact hJ1 j hj hjlen hjp hparp
  · intro j hj hjlen hparc hc0'
    rw [List.length_set] at hjlen
    have hjp : j ≠ p := by omega
    have hpj : p ≠ j := fun hh => hjp hh.symm
    rw [prio_set_other h p j _ hpj, hcpar, prio_set_self h p _ hp]
    have hg : prio h ((j - 1) / 2) ≤ prio h j := hJ1 j hj hjlen hjp (by omega)
    rw [hparc] at hg
    exact hg

theorem siftup_isHeap (x : QueuedTask) :
    ∀ (fuel : Nat) (h : List QueuedTask) (p : Nat), h.length - p ≤ fuel → p < h.length →
      (∀ j, 0 < j → j < h.length → j ≠ p → (j - 1) / 2 ≠ p →
        prio h ((j - 1) / 2) ≤ prio h j) →
      (∀ j, 0 < j → j < h.length → (j - 1) / 2 = p → 0 < p →
        prio h ((p - 1) / 2) ≤ prio h j) →
      isHeap (siftupAux h.length x h 0 p fuel) := by
  intro fuel
  induction fuel with
  | zero =>
    intro h p hpf hp _ _
    omega
  | succ f ih =>
    intro h p hpf hp hJ1 hK
    unfold siftupAux
    by_cases hc : 2 * p + 1 < h.length
    · rw [if_pos hc]
      show isHeap (siftupAux h.length x
        (h.set p (h.getD (if 2 * p + 1 + 1 < h.length ∧
            ¬ qtLt (h.getD (2 * p + 1) default) (h.getD (2 * p + 1 + 1) default)
          then 2 * p + 1 + 1 else 2 * p + 1) default)) 0
        (if 2 * p + 1 + 1 < h.length ∧
            ¬ qtLt (h.getD (2 * p + 1) default) (h.getD (2 * p + 1 + 1) default)
          then 2 * p + 1 + 1 else 2 * p + 1) f)
      by_cases hcond : 2 * p + 1 + 1 < h.length ∧
          ¬ qtLt (h.getD (2 * p + 1) default) (h.getD (2 * p + 1 + 1) default)
      · rw [if_pos hcond]
        apply siftup_step x f ih h p (2 * p + 1 + 1) hp (by omega) hcond.1 hpf hJ1 hK
        intro s hs0 hslen hspar hsc
        have hs1 : s = 2 * p + 1 := by omega
        subst hs1
        have h2 := hcond.2
        simp only [qtLt, not_lt, decide_eq_true_eq] at h2
        simpa [prio] using h2
      · rw [if_neg hcond]
        apply siftup_step x f ih h p (2 * p + 1) hp (by omega) hc hpf hJ1 hK
        intro s hs0 hslen hspar hsc
        have hs1 : s = 2 * p + 1 + 1 := by omega
        subst hs1
        rcases Decidable.not_and_iff_or_not.mp hcond with h1 | h1
        · omega
        · have h2 := not_not.mp h1
          simp only [qtLt, decide_eq_true_eq] at h2
          exact le_of_lt (by simpa [prio] using h2)
    · rw [if_neg hc]
      apply siftdown_isHeap x p h p le_rfl hp hJ1
      intro j hj hjlen hpar
      omega


theorem isHeap_root_min (h : List QueuedTask) (hh : isHeap h) :
    ∀ j, j < h.length → prio h 0 ≤ prio h j := by
  intro j
  induction j using Nat.strong_induction_on with
  | _ j ih =>
    intro hj
    cases Nat.eq_zero_or_pos j with
    | inl h0 => subst h0; exact le_rfl
    | inr hpos =>
      have hpar : (j - 1) / 2 < j := by omega
      exact le_trans (ih ((j - 1) / 2) hpar (by omega)) (hh j hpos hj)

theorem heappop_isHeap (h h2 : List QueuedTask) (r : QueuedTask)
    (hh : isHeap h) (hpop : heappop h = some (r, h2)) : isHeap h2 := by
  unfold heappop at hpop
  cases hgl : h.getLast? with
  | none => rw [hgl] at hpop; cases hpop
  | some last =>
    rw [hgl] at hpop
    have hsplit := eq_dropLast_append_getLast h last hgl
    cases hrest : h.dropLast with
    | nil =>
      rw [hrest] at hpop
      simp only [Option.some.injEq, Prod.mk.injEq] at hpop
      rw [← hpop.2]
      intro j hj hjlen
      simp at hjlen
    | cons a as =>
      rw [hrest] at hpop
      simp only [Option.some.injEq, Prod.mk.injEq] at hpop
      rw [← hpop.2]
      have hlen : ((a :: as).set 0 last).length = (a :: as).length := by simp
      have hdroplen : (a :: as).length + 1 = h.length := by
        rw [hsplit, hrest]; simp
      have hvals : ∀ i, 0 < i → i < (a :: as).length →
          ((a :: as).set 0 last).getD i default = h.getD i default := by
        intro i hi hilen
        rw [getD_set_other (a :: as) 0 i last (by omega)]
        rw [hsplit, hrest, getD_append_left (a :: as) [last] i hilen]
      have hmain := siftup_isHeap last ((a :: as).set 0 last).length
        ((a :: as).set 0 last) 0 (by omega) (by simp) ?_ ?_
      · rw [hlen] at hmain
        exact hmain
      · intro j hj hjlen hj0 hpar0
        rw [hlen] at hjlen
        have hparpos : 0 < (j - 1) / 2 := by omega
        have hparlt : (j - 1) / 2 < (a :: as).length := by omega
        rw [prio, prio, hvals j hj hjlen, hvals ((j - 1) / 2) hparpos hparlt]
        exact hh j hj (by omega)
      · intro j hj hjlen hpar hzero
        omega



theorem heappop_root (h h2 : List QueuedTask) (r : QueuedTask)
    (hpop : heappop h = some (r, h2)) : r = h.getD 0 default := by
  unfold heappop at hpop
  cases hgl : h.getLast? with
  | none => rw [hgl] at hpop; cases hpop
  | some last =>
    rw [hgl] at hpop
    have hsplit := eq_dropLast_append_getLast h last hgl
    cases hrest : h.dropLast with
    | nil =>
      rw [hrest] at hpop
      simp only [Option.some.injEq, Prod.mk.injEq] at hpop
      rw [← hpop.1, hsplit, hrest]
      rfl
    | cons a as =>
      rw [hrest] at hpop
      simp only [Option.some.injEq, Prod.mk.injEq] at hpop
      rw [← hpop.1, hsplit, hrest,
        getD_append_left (a :: as) [last] 0 (by simp)]

theorem heappop_min (h h2 : List QueuedTask) (r : QueuedTask)
    (hh : isHeap h) (hpop : heappop h = some (r, h2)) :
    ∀ y ∈ h, r.priority ≤ y.priority := by
  intro y hy
  obtain ⟨j, hj, hyj⟩ := List.mem_iff_getElem.mp hy
  have hroot := isHeap_root_min h hh j hj
  rw [heappop_root h h2 r hpop]
  have h1 : prio h j = y.priority := by
    rw [prio, List.getD_eq_getElem?_getD, List.getElem?_eq_getElem hj, Option.getD_some, hyj]
  have h2p : prio h 0 = (h.getD 0 default).priority := rfl
  rw [← h1, ← h2p]
  exact hroot

/-- C2 counterexample: four tasks with equal priority submitted in
order 0,1,2,3 are dequeued in order 0,2,1,3 — `_QueuedTask` carries no
`enqueue_seq` and `heapq` is not FIFO-stable on equal keys, so
equal-priority dispatch does not follow submission order. -/
theorem claim_C2_cex :
    (heapPopAll 4 ([⟨0, 0⟩, ⟨0, 1⟩, ⟨0, 2⟩, ⟨0, 3⟩].foldl heappush [])).map
        QueuedTask.task_id = [0, 2, 1, 3] ∧
    ([0, 2, 1, 3] : List Nat) ≠ [0, 1, 2, 3] := by
  constructor
  · rfl
  · decide

/-- C2 (amended): the queue is a binary min-heap on `priority` alone:
pushes and pops preserve the heap shape and permute the multiset of
entries correctly, and each pop yields an entry of minimal priority
among those queued — but within one priority the order is heap order,
not submission (FIFO) order. -/
theorem claim_C2 :
    (∀ (h : List QueuedTask) (x : QueuedTask), isHeap h →
      isHeap (heappush h x) ∧ List.Perm (heappush h x) (x :: h)) ∧
    (∀ (h h2 : List QueuedTask) (r : QueuedTask), isHeap h →
      heappop h = some (r, h2) →
      isHeap h2 ∧ (∀ y ∈ h, r.priority ≤ y.priority) ∧ List.Perm (r :: h2) h) :=
  ⟨fun h x hh => ⟨heappush_isHeap h x hh, heappush_perm h x⟩,
   fun h h2 r hh hpop =>
    ⟨heappop_isHeap h h2 r hh hpop, heappop_min h h2 r hh hpop, heappop_perm h h2 r hpop⟩⟩

theorem claim_C2_witness :
    (isHeap (heappush [⟨2, 7⟩] ⟨1, 5⟩) ∧
      List.Perm (heappush [⟨2, 7⟩] ⟨1, 5⟩) [⟨1, 5⟩, ⟨2, 7⟩]) ∧
    (isHeap [(⟨2, 6⟩ : QueuedTask)] ∧
      (∀ y ∈ ([⟨1, 5⟩, ⟨2, 6⟩] : List QueuedTask),
        QueuedTask.priority ⟨1, 5⟩ ≤ y.priority) ∧
      List.Perm ([⟨1, 5⟩, ⟨2, 6⟩] : List QueuedTask) [⟨1, 5⟩, ⟨2, 6⟩]) := by
  have hh1 : isHeap [(⟨2, 7⟩ : QueuedTask)] := by
    intro j hj hjlen
    simp at hjlen
    omega
  have hh2 : isHeap [(⟨1, 5⟩ : QueuedTask), ⟨2, 6⟩] := by
    intro j hj hjlen
    simp at hjlen
    interval_cases j
    · decide
  refine ⟨(claim_C2.1 [⟨2, 7⟩] ⟨1, 5⟩ hh1), ?_⟩
  exact claim_C2.2 [⟨1, 5⟩, ⟨2, 6⟩] [⟨2, 6⟩] ⟨1, 5⟩ hh2 rfl



theorem length_eq_countP_add_countP {α : Type} (L : List α) (p q : α → Bool)
    (hall : ∀ x ∈ L, p x = true ∨ q x = true)
    (hdisj : ∀ x ∈ L, ¬(p x = true ∧ q x = true)) :
    L.length = L.countP p + L.countP q := by
  induction L with
  | nil => simp
  | cons a as ih =>
    have iha := ih (fun x hx => hall x (List.mem_cons_of_mem a hx))
      (fun x hx => hdisj x (List.mem_cons_of_mem a hx))
    rcases hall a (List.mem_cons_self a as) with hp | hq
    · have hnq : q a = false := by
        cases hqa : q a with
        | false => rfl
        | true => exact absurd ⟨hp, hqa⟩ (hdisj a (List.mem_cons_self a as))
      simp [List.countP_cons, hp, hnq, iha]
      omega
    · have hnp : p a = false := by
        cases hpa : p a with
        | false => rfl
        | true => exact absurd ⟨hpa, hq⟩ (hdisj a (List.mem_cons_self a as))
      simp [List.countP_cons, hq, hnp, iha]
      omega

theorem sum_map_eq_countP {α : Type} (L : List α) (f : α → Nat) (P : α → Bool)
    (h : ∀ x ∈ L, f x = if P x then 1 else 0) :
    (L.map f).sum = L.countP P := by
  induction L with
  | nil => simp
  | cons a as ih =>
    have iha := ih (fun x hx => h x (List.mem_cons_of_mem a hx))
    have ha := h a (List.mem_cons_self a as)
    by_cases hp : P a = true
    · simp [List.countP_cons, hp, ha, iha]
      omega
    · simp only [Bool.not_eq_true] at hp
      simp [List.countP_cons, hp, ha, iha]

theorem sum_map_add {α : Type} (L : List α) (f g : α → Nat) :
    (L.map (fun x => f x + g x)).sum = (L.map f).sum + (L.map g).sum := by
  induction L with
  | nil => simp
  | cons a as ih => simp [ih]; omega

theorem lookup_of_mem_nodup {β : Type} (L : List (Nat × β)) (k : Nat) (v : β)
    (hnd : (L.map Prod.fst).Nodup) (hmem : (k, v) ∈ L) : L.lookup k = some v := by
  induction L with
  | nil => simp at hmem
  | cons a as ih =>
    rcases List.mem_cons.mp hmem with rfl | hmem2
    · simp [List.lookup]
    · simp only [List.map_cons, List.nodup_cons] at hnd
      have hk : k ≠ a.1 := by
        intro hkk
        have hm : k ∈ as.map Prod.fst := List.mem_map.mpr ⟨(k, v), hmem2, rfl⟩
        exact hnd.1 (hkk ▸ hm)
      have hb : (k == a.1) = false := by simpa using hk
      simp only [List.lookup, hb]
      exact ih hnd.2 hmem2

theorem lookup_none_of_forall_ne {β : Type} (L : List (Nat × β)) (k : Nat)
    (h : ∀ p ∈ L, p.1 ≠ k) : L.lookup k = none := by
  induction L with
  | nil => rfl
  | cons a as ih =>
    have hne : (k == a.1) = false := by
      simpa using fun hkk => h a (List.mem_cons_self a as) hkk.symm
    simp only [List.lookup, hne]
    exact ih (fun p hp => h p (List.mem_cons_of_mem a hp))

theorem lookup_nat_cons {β : Type} (a : Nat × β) (L : List (Nat × β)) (k : Nat) :
    List.lookup k (a :: L) = if k = a.1 then some a.2 else List.lookup k L := by
  by_cases h : k = a.1
  · simp [List.lookup, h]
  · simp [List.lookup, h, beq_eq_false_iff_ne.mpr h]

theorem lookup_append_sing {β : Type} (L : List (Nat × β)) (n k : Nat) (t : β) :
    (L ++ [(n, t)]).lookup k =
      match L.lookup k with
      | some v => some v
      | none => if k = n then some t else none := by
  induction L with
  | nil => simp [lookup_nat_cons]
  | cons a as ih =>
    rw [List.cons_append, lookup_nat_cons, lookup_nat_cons]
    by_cases h : k = a.1 <;> simp [h, ih]

theorem lookup_mapIf (g : TaskRec → TaskRec) (L : List (Nat × TaskRec)) (id k : Nat) :
    (L.map (fun p => if p.1 = id then (p.1, g p.2) else p)).lookup k =
      if k = id then (L.lookup k).map g else L.lookup k := by
  induction L with
  | nil => simp
  | cons a as ih =>
    simp only [List.map_cons]
    by_cases ha : a.1 = id
    · rw [if_pos ha, lookup_nat_cons, lookup_nat_cons]
      by_cases hk : k = a.1
      · rw [if_pos hk, if_pos hk, if_pos (hk.trans ha)]
        simp
      · rw [if_neg hk, if_neg hk, ih]
    · rw [if_neg ha, lookup_nat_cons, lookup_nat_cons]
      by_cases hk : k = a.1
      · have hki : k ≠ id := fun hh => ha (hk ▸ hh)
        rw [if_pos hk, if_pos hk, if_neg hki]
      · rw [if_neg hk, if_neg hk, ih]

theorem keys_mapIf (g : TaskRec → TaskRec) (L : List (Nat × TaskRec)) (id : Nat) :
    (L.map (fun p => if p.1 = id then (p.1, g p.2) else p)).map Prod.fst = L.map Prod.fst := by
  induction L with
  | nil => rfl
  | cons a as ih =>
    simp only [List.map_cons, ih]
    by_cases ha : a.1 = id <;> simp [ha]



theorem lookup_setStatus (L : List (Nat × TaskRec)) (id : Nat) (st : TaskStatus) (k : Nat) :
    (setStatus L id st).lookup k =
      if k = id then (L.lookup k).map (fun t => { t with status := st }) else L.lookup k :=
  lookup_mapIf (fun t => { t with status := st }) L id k

theorem keys_setStatus (L : List (Nat × TaskRec)) (id : Nat) (st : TaskStatus) :
    (setStatus L id st).map Prod.fst = L.map Prod.fst :=
  keys_mapIf (fun t => { t with status := st }) L id

theorem lookup_setRunning (L : List (Nat × TaskRec)) (id : Nat) (now : ℚ) (k : Nat) :
    (setRunning L id now).lookup k =
      if k = id then (L.lookup k).map
        (fun t => { t with status := TaskStatus.running, start_time := some now })
      else L.lookup k :=
  lookup_mapIf (fun t => { t with status := TaskStatus.running, start_time := some now }) L id k

theorem keys_setRunning (L : List (Nat × TaskRec)) (id : Nat) (now : ℚ) :
    (setRunning L id now).map Prod.fst = L.map Prod.fst :=
  keys_mapIf (fun t => { t with status := TaskStatus.running, start_time := some now }) L id

theorem lookup_finishTasks (L : List (Nat × TaskRec)) (id : Nat) (final : TaskStatus)
    (res : Option Json) (keepRes : Bool) (now : ℚ) (k : Nat) :
    (finishTasks L id final res keepRes now).lookup k =
      if k = id then (L.lookup k).map
        (fun t => { t with
          status := final,
          result := if keepRes then res else t.result,
          end_time := some now })
      else L.lookup k :=
  lookup_mapIf (fun t => { t with
    status := final,
    result := if keepRes then res else t.result,
    end_time := some now }) L id k

theorem keys_finishTasks (L : List (Nat × TaskRec)) (id : Nat) (final : TaskStatus)
    (res : Option Json) (keepRes : Bool) (now : ℚ) :
    (finishTasks L id final res keepRes now).map Prod.fst = L.map Prod.fst :=
  keys_mapIf (fun t => { t with
    status := final,
    result := if keepRes then res else t.result,
    end_time := some now }) L id

theorem sum_hit (L : List (Nat × TaskRec)) (id : Nat) (P : TaskRec → Bool)
    (hnd : (L.map Prod.fst).Nodup) :
    (L.map (fun p => if P p.2 = true ∧ p.1 = id then 1 else 0)).sum =
      (match L.lookup id with
       | some v => if P v then 1 else 0
       | none => 0) := by
  induction L with
  | nil => simp
  | cons a as ih =>
    simp only [List.map_cons, List.nodup_cons] at hnd
    simp only [List.map_cons, List.sum_cons, lookup_nat_cons]
    by_cases ha : id = a.1
    · rw [if_pos ha]
      have hz : (as.map (fun p => if P p.2 = true ∧ p.1 = id then 1 else 0)).sum = 0 := by
        apply List.sum_eq_zero
        intro x hx
        obtain ⟨p, hp, hpx⟩ := List.mem_map.mp hx
        have : p.1 ≠ id := by
          intro hh
          exact hnd.1 (ha ▸ hh ▸ List.mem_map.mpr ⟨p, hp, rfl⟩)
        rw [← hpx, if_neg (fun hc => this hc.2)]
      rw [hz]
      by_cases hP : P a.2 = true
      · simp [hP, ha]
      · simp [hP, ha]
    · rw [if_neg ha]
      have hterm : (if P a.2 = true ∧ a.1 = id then 1 else 0) = 0 := by
        rw [if_neg (fun hc => ha hc.2.symm)]
      rw [hterm, ih hnd.2]
      omega

theorem countP_pending_entries (s : OState) (Q : List QueuedTask)
    (hnd : (s.tasks.map Prod.fst).Nodup) :
    Q.countP (isPendingEntry s) =
      (s.tasks.map (fun p => if p.2.status = TaskStatus.pending
        then Q.countP (fun e => e.task_id = p.1) else 0)).sum := by
  induction Q with
  | nil =>
    simp only [List.countP_nil]
    symm
    apply List.sum_eq_zero
    intro x hx
    obtain ⟨p, _, hpx⟩ := List.mem_map.mp hx
    rw [← hpx]
    split <;> simp
  | cons e Q ih =>
    rw [List.countP_cons]
    have hmap : s.tasks.map (fun p => if p.2.status = TaskStatus.pending
        then (e :: Q).countP (fun x => x.task_id = p.1) else 0) =
      s.tasks.map (fun p =>
        (if p.2.status = TaskStatus.pending
          then Q.countP (fun x => x.task_id = p.1) else 0) +
        (if p.2.status = TaskStatus.pending ∧ p.1 = e.task_id then 1 else 0)) := by
      apply List.map_congr_left
      intro p _
      by_cases hp : p.2.status = TaskStatus.pending
      · by_cases he : e.task_id = p.1
        · simp [List.countP_cons, hp, ← he]
        · have he2 : ¬ p.1 = e.task_id := fun hc => he hc.symm
          simp [List.countP_cons, hp, he, he2]
      · simp [List.countP_cons, hp]
    rw [hmap, sum_map_add, ← ih]
    have hhit := sum_hit s.tasks e.task_id (fun t => decide (t.status = TaskStatus.pending)) hnd
    have hend : (s.tasks.map (fun p =>
        if p.2.status = TaskStatus.pending ∧ p.1 = e.task_id then 1 else 0)).sum =
        if isPendingEntry s e = true then 1 else 0 := by
      rw [show (s.tasks.map (fun p =>
          if p.2.status = TaskStatus.pending ∧ p.1 = e.task_id then 1 else 0)) =
        (s.tasks.map (fun p =>
          if (decide (p.2.status = TaskStatus.pending)) = true ∧ p.1 = e.task_id
          then 1 else 0)) from by
        apply List.map_congr_left
        intro p _
        by_cases hp : p.2.status = TaskStatus.pending <;> simp [hp]]
      rw [hhit]
      unfold isPendingEntry
      unfold lookupTask
      cases hl : s.tasks.lookup e.task_id with
      | none => simp
      | some t => simp
    rw [hend]



theorem depth_eq_of_inv (s : OState) (hin : Inv s) :
    statusQueueDepth s = pendingFree s + staleQ s := by
  have hsplit : s.queue.length =
      s.queue.countP (isPendingEntry s) + s.queue.countP (isStaleEntry s) := by
    apply length_eq_countP_add_countP
    · intro q hq
      obtain ⟨t, ht, hst⟩ := hin.q_ok q hq
      rcases hst with hp | hc
      · left; simp [isPendingEntry, ht, hp]
      · right; simp [isStaleEntry, ht, hc]
    · intro q hq hand
      obtain ⟨t, ht, _⟩ := hin.q_ok q hq
      obtain ⟨h1, h2⟩ := hand
      simp only [isPendingEntry, ht, decide_eq_true_eq] at h1
      simp only [isStaleEntry, ht, decide_eq_true_eq] at h2
      rw [h1] at h2
      cases h2
  have hstep2 : s.queue.countP (isPendingEntry s) = pendingFree s := by
    rw [countP_pending_entries s s.queue hin.nodup]
    apply sum_map_eq_countP
    intro p hp
    by_cases hpend : p.2.status = TaskStatus.pending
    · have hl : s.tasks.lookup p.1 = some p.2 := by
        have : (p.1, p.2) ∈ s.tasks := by simpa using hp
        exact lookup_of_mem_nodup s.tasks p.1 p.2 hin.nodup this
      have hpc := hin.pcount p.1 p.2 hl hpend
      rw [if_pos hpend]
      show queueCount s p.1 = if isFreePending s p = true then 1 else 0
      by_cases hheld : heldCount s p.1 = 0
      · have hq1 : queueCount s p.1 = 1 := by omega
        rw [hq1]
        simp [isFreePending, hpend, hheld]
      · have hq0 : queueCount s p.1 = 0 := by omega
        rw [hq0]
        simp [isFreePending, hpend, hheld]
    · rw [if_neg hpend]
      simp [isFreePending, hpend]
  unfold statusQueueDepth pendingFree staleQ
  unfold pendingFree at hstep2
  rw [hsplit, hstep2]


theorem countP_heappush (h : List QueuedTask) (x : QueuedTask) (p : QueuedTask → Bool) :
    (heappush h x).countP p = h.countP p + (if p x then 1 else 0) := by
  rw [(heappush_perm h x).countP_eq p, List.countP_cons]

theorem countP_heappop (h h2 : List QueuedTask) (r : QueuedTask)
    (hpop : heappop h = some (r, h2)) (p : QueuedTask → Bool) :
    h.countP p = h2.countP p + (if p r then 1 else 0) := by
  rw [← (heappop_perm h h2 r hpop).countP_eq p, List.countP_cons]

theorem countP_erase_mem (l : List QueuedTask) (a : QueuedTask) (ha : a ∈ l)
    (p : QueuedTask → Bool) :
    l.countP p = (l.erase a).countP p + (if p a then 1 else 0) := by
  rw [(List.perm_cons_erase ha).countP_eq p, List.countP_cons]

theorem mem_heappush (h : List QueuedTask) (x y : QueuedTask) :
    y ∈ heappush h x ↔ y = x ∨ y ∈ h := by
  rw [(heappush_perm h x).mem_iff, List.mem_cons]

theorem mem_of_heappop (h h2 : List QueuedTask) (r : QueuedTask)
    (hpop : heappop h = some (r, h2)) :
    (∀ y ∈ h2, y ∈ h) ∧ r ∈ h := by
  have hp := heappop_perm h h2 r hpop
  constructor
  · intro y hy
    exact hp.mem_iff.mp (List.mem_cons_of_mem r hy)
  · exact hp.mem_iff.mp (List.mem_cons_self r h2)

/-- States agreeing on every field the invariant reads satisfy it
together. -/
theorem inv_of_core (s s2 : OState) (ht : s2.tasks = s.tasks) (hq : s2.queue = s.queue)
    (hb : s2.backoff = s.backoff) (ha : s2.active = s.active) (hn : s2.nextId = s.nextId)
    (hin : Inv s) : Inv s2 := by
  have hl : ∀ id, lookupTask s2 id = lookupTask s id := by
    intro id; unfold lookupTask; rw [ht]
  have hqc : ∀ id, queueCount s2 id = queueCount s id := by
    intro id; unfold queueCount; rw [hq]
  have hhc : ∀ id, heldCount s2 id = heldCount s id := by
    intro id; unfold heldCount; rw [hb, ha]
  refine ⟨?_, ?_, ?_, ?_, ?_, ?_⟩
  · rw [ht, hn]; exact hin.ids
  · rw [ht]; exact hin.nodup
  · intro q hq2
    rw [hq] at hq2
    obtain ⟨t, h1, h2⟩ := hin.q_ok q hq2
    exact ⟨t, (hl q.task_id).trans h1, h2⟩
  · intro q hq2
    rw [hb] at hq2
    obtain ⟨t, h1, h2⟩ := hin.b_ok q hq2
    exact ⟨t, (hl q.task_id).trans h1, h2⟩
  · intro q hq2
    rw [ha] at hq2
    rw [hl q.task_id]
    exact hin.a_ok q hq2
  · intro id t h1 h2
    rw [hl id] at h1
    rw [hqc id, hhc id]
    exact hin.pcount id t h1 h2

theorem inv_enqueue_core (s : OState) (service : String) (payload : Json) (priority : Int)
    (deadline : Option ℚ) (hin : Inv s) :
    Inv (addTaskEnqueue s service payload priority deadline).1 := by
  show Inv { s with
    tasks := s.tasks ++ [(s.nextId, newTask s service payload priority deadline)],
    queue := heappush s.queue ⟨priority, s.nextId⟩,
    nextId := s.nextId + 1 }
  have hboundne : ∀ p ∈ s.tasks, p.1 ≠ s.nextId := by
    intro p hp
    have := (hin.ids p hp).2
    omega
  have hnone : s.tasks.lookup s.nextId = none :=
    lookup_none_of_forall_ne s.tasks s.nextId hboundne
  have hqnotn : ∀ e ∈ s.queue, e.task_id ≠ s.nextId := by
    intro e he hne
    obtain ⟨t, hlt, _⟩ := hin.q_ok e he
    rw [lookupTask, hne, hnone] at hlt
    cases hlt
  have hbnotn : ∀ e ∈ s.backoff, e.task_id ≠ s.nextId := by
    intro e he hne
    obtain ⟨t, hlt, _⟩ := hin.b_ok e he
    rw [lookupTask, hne, hnone] at hlt
    cases hlt
  have hanotn : ∀ e ∈ s.active, e.task_id ≠ s.nextId := by
    intro e he hne
    have := hin.a_ok e he
    rw [lookupTask, hne, hnone] at this
    cases this
  refine ⟨?_, ?_, ?_, ?_, ?_, ?_⟩
  · intro p hp
    rcases List.mem_append.mp hp with hold | hnew
    · have := hin.ids p hold
      exact ⟨this.1, by simp; omega⟩
    · rcases List.mem_singleton.mp hnew with rfl
      exact ⟨rfl, by simp⟩
  · show ((s.tasks ++ [(s.nextId, newTask s service payload priority deadline)]).map
      Prod.fst).Nodup
    rw [List.map_append, List.nodup_append]
    refine ⟨hin.nodup, by simp, ?_⟩
    intro k hk
    obtain ⟨p, hp, hpk⟩ := List.mem_map.mp hk
    simp only [List.map_cons, List.map_nil, List.mem_cons, List.not_mem_nil, or_false]
    intro hkn
    exact hboundne p hp (hpk ▸ hkn)
  · intro q hq
    rcases (mem_heappush s.queue ⟨priority, s.nextId⟩ q).mp hq with rfl | hold
    · refine ⟨newTask s service payload priority deadline, ?_, Or.inl rfl⟩
      show List.lookup s.nextId (s.tasks ++ [(s.nextId, _)]) = _
      rw [lookup_append_sing, hnone]
      simp
    · obtain ⟨t, hlt, hst⟩ := hin.q_ok q hold
      refine ⟨t, ?_, hst⟩
      show List.lookup q.task_id (s.tasks ++ [(s.nextId, _)]) = _
      rw [lookup_append_sing]
      rw [lookupTask] at hlt
      rw [hlt]
  · intro q hq
    obtain ⟨t, hlt, hst⟩ := hin.b_ok q hq
    refine ⟨t, ?_, hst⟩
    show List.lookup q.task_id (s.tasks ++ [(s.nextId, _)]) = _
    rw [lookup_append_sing]
    rw [lookupTask] at hlt
    rw [hlt]
  · intro q hq
    have hsome := hin.a_ok q hq
    show (List.lookup q.task_id (s.tasks ++ [(s.nextId, _)])).isSome = true
    rw [lookup_append_sing]
    rw [lookupTask] at hsome
    cases hcase : s.tasks.lookup q.task_id with
    | none => rw [hcase] at hsome; cases hsome
    | some v => simp
  · intro id t hlt hpend
    replace hlt : List.lookup id
        (s.tasks ++ [(s.nextId, newTask s service payload priority deadline)]) = some t := hlt
    rw [lookup_append_sing] at hlt
    have hqcount : queueCount { s with
        tasks := s.tasks ++ [(s.nextId, newTask s service payload priority deadline)],
        queue := heappush s.queue ⟨priority, s.nextId⟩,
        nextId := s.nextId + 1 } id =
      s.queue.countP (fun e => decide (e.task_id = id)) + (if s.nextId = id then 1 else 0) := by
      show (heappush s.queue ⟨priority, s.nextId⟩).countP (fun e => decide (e.task_id = id)) = _
      rw [countP_heappush]
      simp only [decide_eq_true_eq]
    have hhcount : heldCount { s with
        tasks := s.tasks ++ [(s.nextId, newTask s service payload priority deadline)],
        queue := heappush s.queue ⟨priority, s.nextId⟩,
        nextId := s.nextId + 1 } id = heldCount s id := rfl
    rw [hqcount, hhcount]
    by_cases hid : id = s.nextId
    · have hlooked : s.tasks.lookup id = none := by rw [hid]; exact hnone
      rw [hlooked, if_pos hid] at hlt
      have hq0 : s.queue.countP (fun e => decide (e.task_id = id)) = 0 := by
        rw [List.countP_eq_zero]
        intro e he
        simp only [decide_eq_true_eq]
        intro hh
        exact hqnotn e he (hh.trans hid)
      have hh0 : heldCount s id = 0 := by
        show (s.backoff ++ s.active).countP (fun e => decide (e.task_id = id)) = 0
        rw [List.countP_eq_zero]
        intro e he
        simp only [decide_eq_true_eq]
        intro hh
        rcases List.mem_append.mp he with hb | ha
        · exact hbnotn e hb (hh.trans hid)
        · exact hanotn e ha (hh.trans hid)
      rw [hq0, hh0, if_pos hid.symm]
    · cases hcase : s.tasks.lookup id with
      | none =>
        rw [hcase] at hlt
        rw [if_neg hid] at hlt
        cases hlt
      | some v =>
        rw [hcase] at hlt
        simp only [Option.some.injEq] at hlt
        rw [hlt] at hcase
        have hpc := hin.pcount id t (by rw [lookupTask]; exact hcase) hpend
        rw [if_neg (fun hh => hid hh.symm)]
        unfold queueCount at hpc
        omega

theorem inv_addTask (s : OState) (service : String) (payload : Json) (priority : Int)
    (deadline : Option ℚ) (now : ℚ) (hin : Inv s) :
    Inv (addTask s service payload priority deadline now).1 := by
  unfold addTask
  cases hb : s.buckets.lookup service with
  | none =>
    exact inv_of_core (addTaskEnqueue s service payload priority deadline).1 _
      rfl rfl rfl rfl rfl (inv_enqueue_core s service payload priority deadline hin)
  | some b =>
    by_cases hallow : (b.consume now 1).2.1 = true
    · simp only [hallow, if_true]
      have hin2 : Inv { s with buckets := assocSet s.buckets service (b.consume now 1).1 } :=
        inv_of_core s _ rfl rfl rfl rfl rfl hin
      exact inv_of_core (addTaskEnqueue
          { s with buckets := assocSet s.buckets service (b.consume now 1).1 }
          service payload priority deadline).1 _
        rfl rfl rfl rfl rfl (inv_enqueue_core _ service payload priority deadline hin2)
    · simp only [Bool.not_eq_true] at hallow
      simp only [hallow, if_false]
      exact inv_of_core s _ rfl rfl rfl rfl rfl hin

theorem inv_cancelTask (s : OState) (id : Nat) (hin : Inv s) :
    Inv (cancelTask s id).1 := by
  unfold cancelTask
  split
  · exact hin
  · split
    case isFalse => exact hin
    case isTrue =>
      refine ⟨?_, ?_, ?_, ?_, ?_, ?_⟩
      · intro p hp
        show p.2.id = p.1 ∧ p.1 < s.nextId
        obtain ⟨p0, hp0, hp0e⟩ := List.mem_map.mp hp
        have := hin.ids p0 hp0
        rw [← hp0e]
        by_cases hpp : p0.1 = id
        · rw [if_pos hpp]
          exact ⟨this.1, this.2⟩
        · rw [if_neg hpp]
          exact this
      · show ((setStatus s.tasks id TaskStatus.cancelled).map Prod.fst).Nodup
        rw [keys_setStatus]
        exact hin.nodup
      · intro q hq
        obtain ⟨t2, hlt2, hst2⟩ := hin.q_ok q hq
        show ∃ t3, (setStatus s.tasks id TaskStatus.cancelled).lookup q.task_id = some t3 ∧ _
        rw [lookup_setStatus]
        by_cases hqid : q.task_id = id
        · rw [if_pos hqid]
          rw [lookupTask] at hlt2
          rw [hlt2]
          exact ⟨_, rfl, Or.inr rfl⟩
        · rw [if_neg hqid]
          rw [lookupTask] at hlt2
          rw [hlt2]
          exact ⟨t2, rfl, hst2⟩
      · intro q hq
        obtain ⟨t2, hlt2, hst2⟩ := hin.b_ok q hq
        show ∃ t3, (setStatus s.tasks id TaskStatus.cancelled).lookup q.task_id = some t3 ∧ _
        rw [lookup_setStatus]
        by_cases hqid : q.task_id = id
        · rw [if_pos hqid]
          rw [lookupTask] at hlt2
          rw [hlt2]
          exact ⟨_, rfl, Or.inr rfl⟩
        · rw [if_neg hqid]
          rw [lookupTask] at hlt2
          rw [hlt2]
          exact ⟨t2, rfl, hst2⟩
      · intro q hq
        have hsome := hin.a_ok q hq
        show ((setStatus s.tasks id TaskStatus.cancelled).lookup q.task_id).isSome = true
        rw [lookup_setStatus]
        by_cases hqid : q.task_id = id
        · rw [if_pos hqid]
          rw [lookupTask] at hsome
          cases hcase : s.tasks.lookup q.task_id with
          | none => rw [hcase] at hsome; cases hsome
          | some v => rfl
        · rw [if_neg hqid]
          exact hsome
      · intro id2 t2 hlt2 hpend2
        replace hlt2 : (setStatus s.tasks id TaskStatus.cancelled).lookup id2 = some t2 := hlt2
        rw [lookup_setStatus] at hlt2
        by_cases hqid : id2 = id
        · rw [if_pos hqid] at hlt2
          cases hcase : s.tasks.lookup id2 with
          | none => rw [hcase] at hlt2; cases hlt2
          | some v =>
            rw [hcase] at hlt2
            have hv : ({ v with status := TaskStatus.cancelled } : TaskRec) = t2 :=
              Option.some.inj hlt2
            rw [← hv] at hpend2
            cases hpend2
        · rw [if_neg hqid] at hlt2
          have := hin.pcount id2 t2 hlt2 hpend2
          exact this

/-- A popped entry of a pending task is that task's only entry: the
remaining heap, the backoff list and the active list hold no entry
naming it. -/
theorem pop_pending_counts (s : OState) (q : QueuedTask) (rest : List QueuedTask) (t : TaskRec)
    (hpop : heappop s.queue = some (q, rest))
    (ht : lookupTask s q.task_id = some t) (hp : t.status = TaskStatus.pending)
    (hin : Inv s) :
    rest.countP (fun e => decide (e.task_id = q.task_id)) = 0 ∧
    s.backoff.countP (fun e => decide (e.task_id = q.task_id)) = 0 ∧
    s.active.countP (fun e => decide (e.task_id = q.task_id)) = 0 := by
  have hpc := hin.pcount q.task_id t ht hp
  have hcount := countP_heappop s.queue rest q hpop (fun e => decide (e.task_id = q.task_id))
  rw [if_pos (by simp)] at hcount
  unfold queueCount heldCount at hpc
  rw [List.countP_append] at hpc
  omega

/-- The task named by an entry popped with a non-cancelled status is
pending (by the queue clause of the invariant). -/
theorem pop_entry_pending (s : OState) (q : QueuedTask) (rest : List QueuedTask) (t : TaskRec)
    (hpop : heappop s.queue = some (q, rest))
    (ht : lookupTask s q.task_id = some t) (hnc : t.status ≠ TaskStatus.cancelled)
    (hin : Inv s) : t.status = TaskStatus.pending := by
  have hqmem := (mem_of_heappop s.queue rest q hpop).2
  obtain ⟨t2, hlt2, hst2⟩ := hin.q_ok q hqmem
  rw [ht] at hlt2
  rw [← Option.some.inj hlt2] at hst2
  rcases hst2 with h | h
  · exact h
  · exact absurd h hnc

/-- The deadline branch and the unknown-service branch both pop an
entry and mark its task `failed` with no other state change; the
invariant survives. -/
theorem inv_failPop (s : OState) (q : QueuedTask) (rest : List QueuedTask) (t : TaskRec)
    (hpop : heappop s.queue = some (q, rest))
    (ht : lookupTask s q.task_id = some t) (hnc : t.status ≠ TaskStatus.cancelled)
    (hin : Inv s) :
    Inv { s with queue := rest, tasks := setStatus s.tasks q.task_id TaskStatus.failed } := by
  have hpend := pop_entry_pending s q rest t hpop ht hnc hin
  obtain ⟨hr0, hb0, ha0⟩ := pop_pending_counts s q rest t hpop ht hpend hin
  have hmem := mem_of_heappop s.queue rest q hpop
  have hrne : ∀ e ∈ rest, e.task_id ≠ q.task_id := by
    intro e he
    have hcz := List.countP_eq_zero.mp hr0 e he
    simpa using hcz
  have hbne : ∀ e ∈ s.backoff, e.task_id ≠ q.task_id := by
    intro e he
    have hcz := List.countP_eq_zero.mp hb0 e he
    simpa using hcz
  refine ⟨?_, ?_, ?_, ?_, ?_, ?_⟩
  · intro p hp
    show p.2.id = p.1 ∧ p.1 < s.nextId
    obtain ⟨p0, hp0, hp0e⟩ := List.mem_map.mp hp
    have h0 := hin.ids p0 hp0
    rw [← hp0e]
    by_cases hpp : p0.1 = q.task_id
    · rw [if_pos hpp]
      exact ⟨h0.1, h0.2⟩
    · rw [if_neg hpp]
      exact h0
  · show ((setStatus s.tasks q.task_id TaskStatus.failed).map Prod.fst).Nodup
    rw [keys_setStatus]
    exact hin.nodup
  · intro e he
    obtain ⟨t2, hlt2, hst2⟩ := hin.q_ok e (hmem.1 e he)
    show ∃ t3, (setStatus s.tasks q.task_id TaskStatus.failed).lookup e.task_id = some t3 ∧ _
    rw [lookup_setStatus, if_neg (hrne e he)]
    rw [lookupTask] at hlt2
    rw [hlt2]
    exact ⟨t2, rfl, hst2⟩
  · intro e he
    obtain ⟨t2, hlt2, hst2⟩ := hin.b_ok e he
    show ∃ t3, (setStatus s.tasks q.task_id TaskStatus.failed).lookup e.task_id = some t3 ∧ _
    rw [lookup_setStatus, if_neg (hbne e he)]
    rw [lookupTask] at hlt2
    rw [hlt2]
    exact ⟨t2, rfl, hst2⟩
  · intro e he
    have hsome := hin.a_ok e he
    show ((setStatus s.tasks q.task_id TaskStatus.failed).lookup e.task_id).isSome = true
    rw [lookup_setStatus]
    by_cases heq : e.task_id = q.task_id
    · rw [if_pos heq]
      rw [lookupTask] at hsome
      cases hcase : s.tasks.lookup e.task_id with
      | none => rw [hcase] at hsome; cases hsome
      | some v => rfl
    · rw [if_neg heq]
      exact hsome
  · intro id2 t2 hlt2 hpend2
    replace hlt2 : (setStatus s.tasks q.task_id TaskStatus.failed).lookup id2 = some t2 := hlt2
    rw [lookup_setStatus] at hlt2
    by_cases hqid : id2 = q.task_id
    · rw [if_pos hqid] at hlt2
      cases hcase : s.tasks.lookup id2 with
      | none => rw [hcase] at hlt2; cases hlt2
      | some v =>
        rw [hcase] at hlt2
        have hv := Option.some.inj hlt2
        rw [← hv] at hpend2
        cases hpend2
    · rw [if_neg hqid] at hlt2
      have hpc := hin.pcount id2 t2 hlt2 hpend2
      have hcount := countP_heappop s.queue rest q hpop (fun e => decide (e.task_id = id2))
      have hne2 : ¬ (q.task_id = id2) := fun hh => hqid hh.symm
      rw [if_neg (by simp [hne2])] at hcount
      show rest.countP (fun e => decide (e.task_id = id2)) +
        heldCount { s with
          queue := rest,
          tasks := setStatus s.tasks q.task_id TaskStatus.failed } id2 = 1
      have hheld : heldCount { s with
          queue := rest,
          tasks := setStatus s.tasks q.task_id TaskStatus.failed } id2 = heldCount s id2 := rfl
      rw [hheld]
      unfold queueCount at hpc
      omega

/-- Discarding a popped entry whose task is unknown or cancelled
preserves the invariant. -/
theorem inv_workerDiscard (s : OState) (q : QueuedTask) (rest : List QueuedTask)
    (hpop : heappop s.queue = some (q, rest))
    (hgone : lookupTask s q.task_id = none ∨
      ∃ t, lookupTask s q.task_id = some t ∧ t.status = TaskStatus.cancelled)
    (hin : Inv s) : Inv { s with queue := rest } := by
  have hmem := mem_of_heappop s.queue rest q hpop
  refine ⟨hin.ids, hin.nodup, ?_, hin.b_ok, hin.a_ok, ?_⟩
  · intro e he
    exact hin.q_ok e (hmem.1 e he)
  · intro id2 t2 hlt2 hpend2
    replace hlt2 : lookupTask s id2 = some t2 := hlt2
    have hpc := hin.pcount id2 t2 hlt2 hpend2
    have hcount := countP_heappop s.queue rest q hpop (fun e => decide (e.task_id = id2))
    have hne : ¬ (q.task_id = id2) := by
      intro heqid
      rcases hgone with hn | ⟨t3, hl3, hc3⟩
      · rw [heqid, hlt2] at hn
        cases hn
      · rw [heqid, hlt2] at hl3
        rw [← Option.some.inj hl3] at hc3
        rw [hpend2] at hc3
        cases hc3
    rw [if_neg (by simp [hne])] at hcount
    show rest.countP (fun e => decide (e.task_id = id2)) +
      heldCount { s with queue := rest } id2 = 1
    have hheld : heldCount { s with queue := rest } id2 = heldCount s id2 := rfl
    rw [hheld]
    unfold queueCount at hpc
    omega

/-- Moving a popped entry to the backoff list (open circuit) preserves
the invariant. -/
theorem inv_circuitHold (s : OState) (q : QueuedTask) (rest : List QueuedTask)
    (hpop : heappop s.queue = some (q, rest)) (hin : Inv s) :
    Inv { s with queue := rest, backoff := s.backoff ++ [q] } := by
  have hmem := mem_of_heappop s.queue rest q hpop
  refine ⟨hin.ids, hin.nodup, ?_, ?_, hin.a_ok, ?_⟩
  · intro e he
    exact hin.q_ok e (hmem.1 e he)
  · intro e he
    rcases List.mem_append.mp he with hb | hq1
    · exact hin.b_ok e hb
    · rw [List.mem_singleton.mp hq1]
      exact hin.q_ok q hmem.2
  · intro id2 t2 hlt2 hpend2
    replace hlt2 : lookupTask s id2 = some t2 := hlt2
    have hpc := hin.pcount id2 t2 hlt2 hpend2
    have hcount := countP_heappop s.queue rest q hpop (fun e => decide (e.task_id = id2))
    show rest.countP (fun e => decide (e.task_id = id2)) +
      ((s.backoff ++ [q]) ++ s.active).countP (fun e => decide (e.task_id = id2)) = 1
    unfold queueCount heldCount at hpc
    rw [List.countP_append] at hpc
    rw [hcount] at hpc
    rw [List.countP_append, List.countP_append]
    by_cases hqe : q.task_id = id2
    · rw [if_pos (by simp [hqe])] at hpc
      have h1 : ([q] : List QueuedTask).countP (fun e => decide (e.task_id = id2)) = 1 := by
        simp [hqe]
      rw [h1]
      omega
    · rw [if_neg (by simp [hqe])] at hpc
      have h1 : ([q] : List QueuedTask).countP (fun e => decide (e.task_id = id2)) = 0 := by
        simp [hqe]
      rw [h1]
      omega

/-- Re-pushing a backoff entry onto the heap preserves the
invariant. -/
theorem inv_requeue (s : OState) (q : QueuedTask) (hq : q ∈ s.backoff) (hin : Inv s) :
    Inv { s with queue := heappush s.queue q, backoff := s.backoff.erase q } := by
  refine ⟨hin.ids, hin.nodup, ?_, ?_, hin.a_ok, ?_⟩
  · intro e he
    rcases (mem_heappush s.queue q e).mp he with heq | hold
    · rw [heq]
      exact hin.b_ok q hq
    · exact hin.q_ok e hold
  · intro e he
    exact hin.b_ok e (List.mem_of_mem_erase he)
  · intro id2 t2 hlt2 hpend2
    replace hlt2 : lookupTask s id2 = some t2 := hlt2
    have hpc := hin.pcount id2 t2 hlt2 hpend2
    have hpush := countP_heappush s.queue q (fun e => decide (e.task_id = id2))
    have herase := countP_erase_mem s.backoff q hq (fun e => decide (e.task_id = id2))
    show (heappush s.queue q).countP (fun e => decide (e.task_id = id2)) +
      (s.backoff.erase q ++ s.active).countP (fun e => decide (e.task_id = id2)) = 1
    rw [hpush, List.countP_append]
    unfold queueCount heldCount at hpc
    rw [List.countP_append] at hpc
    by_cases hqe : q.task_id = id2
    · rw [if_pos (by simp [hqe])]
      rw [if_pos (by simp [hqe])] at herase
      omega
    · rw [if_neg (by simp [hqe])]
      rw [if_neg (by simp [hqe])] at herase
      omega

/-- Popping a pending task's entry and marking the task running while
adding the entry to the active list preserves the invariant. -/
theorem inv_beginRun_core (s : OState) (q : QueuedTask) (rest : List QueuedTask) (t : TaskRec)
    (now : ℚ)
    (hpop : heappop s.queue = some (q, rest))
    (ht : lookupTask s q.task_id = some t) (hnc : t.status ≠ TaskStatus.cancelled)
    (hin : Inv s) :
    Inv { s with
      queue := rest,
      active := s.active ++ [q],
      tasks := setRunning s.tasks q.task_id now } := by
  have hpend := pop_entry_pending s q rest t hpop ht hnc hin
  obtain ⟨hr0, hb0, ha0⟩ := pop_pending_counts s q rest t hpop ht hpend hin
  have hmem := mem_of_heappop s.queue rest q hpop
  have hrne : ∀ e ∈ rest, e.task_id ≠ q.task_id := by
    intro e he
    have hcz := List.countP_eq_zero.mp hr0 e he
    simpa using hcz
  have hbne : ∀ e ∈ s.backoff, e.task_id ≠ q.task_id := by
    intro e he
    have hcz := List.countP_eq_zero.mp hb0 e he
    simpa using hcz
  refine ⟨?_, ?_, ?_, ?_, ?_, ?_⟩
  · intro p hp
    show p.2.id = p.1 ∧ p.1 < s.nextId
    obtain ⟨p0, hp0, hp0e⟩ := List.mem_map.mp hp
    have h0 := hin.ids p0 hp0
    rw [← hp0e]
    by_cases hpp : p0.1 = q.task_id
    · rw [if_pos hpp]
      exact ⟨h0.1, h0.2⟩
    · rw [if_neg hpp]
      exact h0
  · show ((setRunning s.tasks q.task_id now).map Prod.fst).Nodup
    rw [keys_setRunning]
    exact hin.nodup
  · intro e he
    obtain ⟨t2, hlt2, hst2⟩ := hin.q_ok e (hmem.1 e he)
    show ∃ t3, (setRunning s.tasks q.task_id now).lookup e.task_id = some t3 ∧ _
    rw [lookup_setRunning, if_neg (hrne e he)]
    rw [lookupTask] at hlt2
    rw [hlt2]
    exact ⟨t2, rfl, hst2⟩
  · intro e he
    obtain ⟨t2, hlt2, hst2⟩ := hin.b_ok e he
    show ∃ t3, (setRunning s.tasks q.task_id now).lookup e.task_id = some t3 ∧ _
    rw [lookup_setRunning, if_neg (hbne e he)]
    rw [lookupTask] at hlt2
    rw [hlt2]
    exact ⟨t2, rfl, hst2⟩
  · intro e he
    show ((setRunning s.tasks q.task_id now).lookup e.task_id).isSome = true
    rw [lookup_setRunning]
    rcases List.mem_append.mp he with hold | hnew
    · have hsome := hin.a_ok e hold
      by_cases heq : e.task_id = q.task_id
      · rw [if_pos heq]
        rw [lookupTask] at hsome
        cases hcase : s.tasks.lookup e.task_id with
        | none => rw [hcase] at hsome; cases hsome
        | some v => rfl
      · rw [if_neg heq]
        exact hsome
    · rw [List.mem_singleton.mp hnew]
      rw [if_pos rfl]
      rw [lookupTask] at ht
      rw [ht]
      rfl
  · intro id2 t2 hlt2 hpend2
    replace hlt2 : (setRunning s.tasks q.task_id now).lookup id2 = some t2 := hlt2
    rw [lookup_setRunning] at hlt2
    by_cases hqid : id2 = q.task_id
    · rw [if_pos hqid] at hlt2
      cases hcase : s.tasks.lookup id2 with
      | none => rw [hcase] at hlt2; cases hlt2
      | some v =>
        rw [hcase] at hlt2
        have hv := Option.some.inj hlt2
        rw [← hv] at hpend2
        cases hpend2
    · rw [if_neg hqid] at hlt2
      have hpc := hin.pcount id2 t2 hlt2 hpend2
      have hcount := countP_heappop s.queue rest q hpop (fun e => decide (e.task_id = id2))
      have hne2 : ¬ (q.task_id = id2) := fun hh => hqid hh.symm
      rw [if_neg (by simp [hne2])] at hcount
      show rest.countP (fun e => decide (e.task_id = id2)) +
        (s.backoff ++ (s.active ++ [q])).countP (fun e => decide (e.task_id = id2)) = 1
      rw [List.countP_append, List.countP_append]
      have h1 : ([q] : List QueuedTask).countP (fun e => decide (e.task_id = id2)) = 0 := by
        simp [hne2]
      rw [h1]
      unfold queueCount heldCount at hpc
      rw [List.countP_append] at hpc
      omega

/-- The worker's finish path: the active entry is released and the
task receives a terminal status (never `pending`; a cancelled task
stays cancelled), so the invariant survives. -/
theorem inv_finish (s : OState) (q : QueuedTask) (t : TaskRec) (final : TaskStatus)
    (keep : Bool) (now : ℚ) (circuit2 : List (String × CircuitState)) (result : Option Json)
    (hq : q ∈ s.active)
    (ht : lookupTask s q.task_id = some t)
    (hst : t.status = TaskStatus.running ∨ t.status = TaskStatus.cancelled)
    (hfin : final ≠ TaskStatus.pending)
    (hfinc : t.status = TaskStatus.cancelled → final = TaskStatus.cancelled)
    (hin : Inv s) :
    Inv { s with
      active := s.active.erase q,
      tasks := finishTasks s.tasks q.task_id final result keep now,
      circuit := circuit2,
      wal := s.wal ++ [WalRec.status q.task_id final] } := by
  refine ⟨?_, ?_, ?_, ?_, ?_, ?_⟩
  · intro p hp
    show p.2.id = p.1 ∧ p.1 < s.nextId
    obtain ⟨p0, hp0, hp0e⟩ := List.mem_map.mp hp
    have h0 := hin.ids p0 hp0
    rw [← hp0e]
    by_cases hpp : p0.1 = q.task_id
    · rw [if_pos hpp]
      exact ⟨h0.1, h0.2⟩
    · rw [if_neg hpp]
      exact h0
  · show ((finishTasks s.tasks q.task_id final result keep now).map Prod.fst).Nodup
    rw [keys_finishTasks]
    exact hin.nodup
  · intro e he
    obtain ⟨t2, hlt2, hst2⟩ := hin.q_ok e he
    show ∃ t3, (finishTasks s.tasks q.task_id final result keep now).lookup e.task_id =
      some t3 ∧ _
    rw [lookup_finishTasks]
    by_cases heq : e.task_id = q.task_id
    · rw [if_pos heq]
      rw [heq, ht] at hlt2
      rw [← Option.some.inj hlt2] at hst2
      have hcanc : t.status = TaskStatus.cancelled := by
        rcases hst2 with hpend | hc
        · rcases hst with hr | hc2
          · rw [hpend] at hr
            cases hr
          · exact hc2
        · exact hc
      rw [heq]
      have ht2 : s.tasks.lookup q.task_id = some t := ht
      rw [ht2]
      exact ⟨_, rfl, Or.inr (hfinc hcanc)⟩
    · rw [if_neg heq]
      rw [lookupTask] at hlt2
      rw [hlt2]
      exact ⟨t2, rfl, hst2⟩
  · intro e he
    obtain ⟨t2, hlt2, hst2⟩ := hin.b_ok e he
    show ∃ t3, (finishTasks s.tasks q.task_id final result keep now).lookup e.task_id =
      some t3 ∧ _
    rw [lookup_finishTasks]
    by_cases heq : e.task_id = q.task_id
    · rw [if_pos heq]
      rw [heq, ht] at hlt2
      rw [← Option.some.inj hlt2] at hst2
      have hcanc : t.status = TaskStatus.cancelled := by
        rcases hst2 with hpend | hc
        · rcases hst with hr | hc2
          · rw [hpend] at hr
            cases hr
          · exact hc2
        · exact hc
      rw [heq]
      have ht2 : s.tasks.lookup q.task_id = some t := ht
      rw [ht2]
      exact ⟨_, rfl, Or.inr (hfinc hcanc)⟩
    · rw [if_neg heq]
      rw [lookupTask] at hlt2
      rw [hlt2]
      exact ⟨t2, rfl, hst2⟩
  · intro e he
    have hsome := hin.a_ok e (List.mem_of_mem_erase he)
    show ((finishTasks s.tasks q.task_id final result keep now).lookup e.task_id).isSome = true
    rw [lookup_finishTasks]
    by_cases heq : e.task_id = q.task_id
    · rw [if_pos heq]
      rw [lookupTask] at hsome
      cases hcase : s.tasks.lookup e.task_id with
      | none => rw [hcase] at hsome; cases hsome
      | some v => rfl
    · rw [if_neg heq]
      exact hsome
  · intro id2 t2 hlt2 hpend2
    replace hlt2 : (finishTasks s.tasks q.task_id final result keep now).lookup id2 =
      some t2 := hlt2
    rw [lookup_finishTasks] at hlt2
    by_cases hqid : id2 = q.task_id
    · rw [if_pos hqid] at hlt2
      cases hcase : s.tasks.lookup id2 with
      | none => rw [hcase] at hlt2; cases hlt2
      | some v =>
        rw [hcase] at hlt2
        have hv := Option.some.inj hlt2
        rw [← hv] at hpend2
        exact absurd hpend2 hfin
    · rw [if_neg hqid] at hlt2
      have hpc := hin.pcount id2 t2 hlt2 hpend2
      have herase := countP_erase_mem s.active q hq (fun e => decide (e.task_id = id2))
      have hne2 : ¬ (q.task_id = id2) := fun hh => hqid hh.symm
      rw [if_neg (by simp [hne2])] at herase
      show s.queue.countP (fun e => decide (e.task_id = id2)) +
        (s.backoff ++ s.active.erase q).countP (fun e => decide (e.task_id = id2)) = 1
      rw [List.countP_append]
      unfold queueCount heldCount at hpc
      rw [List.countP_append] at hpc
      omega

/-- Every transition preserves the invariant. -/
theorem inv_step (s s2 : OState) (hstep : Step s s2) (hin : Inv s) : Inv s2 := by
  cases hstep with
  | submit service payload priority deadline now _ id heq =>
    have h2 := inv_addTask s service payload priority deadline now hin
    rw [heq] at h2
    exact h2
  | submitDenied service payload priority deadline now _ e heq =>
    have h2 := inv_addTask s service payload priority deadline now hin
    rw [heq] at h2
    exact h2
  | cancel id _ b heq =>
    have h2 := inv_cancelTask s id hin
    rw [heq] at h2
    exact h2
  | workerDiscard q rest hpop hgone =>
    exact inv_workerDiscard s q rest hpop hgone hin
  | workerDeadline q rest t now hpop ht hnc hd =>
    exact inv_failPop s q rest t hpop ht hnc hin
  | workerCircuitHold q rest t now threshold timeout hpop ht hnc hd hcirc =>
    exact inv_circuitHold s q rest hpop hin
  | workerRequeue q hq =>
    exact inv_requeue s q hq hin
  | workerNoService q rest t now threshold timeout s1 hpop ht hnc hd hcirc hsvc =>
    have hts : s1.tasks = s.tasks := (congrArg (fun p => p.1.tasks) hcirc).symm
    have hbs : s1.backoff = s.backoff := (congrArg (fun p => p.1.backoff) hcirc).symm
    have has2 : s1.active = s.active := (congrArg (fun p => p.1.active) hcirc).symm
    have hns : s1.nextId = s.nextId := (congrArg (fun p => p.1.nextId) hcirc).symm
    refine inv_of_core
      { s with queue := rest, tasks := setStatus s.tasks q.task_id TaskStatus.failed } _
      ?_ rfl ?_ ?_ ?_ (inv_failPop s q rest t hpop ht hnc hin)
    · show setStatus s1.tasks q.task_id TaskStatus.failed =
        setStatus s.tasks q.task_id TaskStatus.failed
      rw [hts]
    · exact hbs
    · exact has2
    · exact hns
  | workerBeginRun q rest t now threshold timeout s1 hpop ht hnc hd hcirc hsvc =>
    have hts : s1.tasks = s.tasks := (congrArg (fun p => p.1.tasks) hcirc).symm
    have hbs : s1.backoff = s.backoff := (congrArg (fun p => p.1.backoff) hcirc).symm
    have has2 : s1.active = s.active := (congrArg (fun p => p.1.active) hcirc).symm
    have hns : s1.nextId = s.nextId := (congrArg (fun p => p.1.nextId) hcirc).symm
    refine inv_of_core
      { s with
        queue := rest,
        active := s.active ++ [q],
        tasks := setRunning s.tasks q.task_id now } _
      ?_ rfl ?_ ?_ ?_ (inv_beginRun_core s q rest t now hpop ht hnc hin)
    · show setRunning s1.tasks q.task_id now = setRunning s.tasks q.task_id now
      rw [hts]
    · exact hbs
    · show s1.active ++ [q] = s.active ++ [q]
      rw [has2]
    · exact hns
  | workerFinish q t ok now circuit2 result hq ht hst =>
    refine inv_finish s q t
      (if t.status = TaskStatus.cancelled then TaskStatus.cancelled
       else if ok then TaskStatus.succeeded else TaskStatus.failed)
      (decide (t.status ≠ TaskStatus.cancelled) && ok) now circuit2 result hq ht hst ?_ ?_ hin
    · by_cases hc : t.status = TaskStatus.cancelled <;> cases ok <;> simp [hc]
    · intro hc
      rw [if_pos hc]

/-- A fresh orchestrator satisfies the invariant. -/
theorem inv_init (services : List String) (buckets : List (String × TokenBucket)) :
    Inv (initState services buckets) := by
  refine ⟨?_, ?_, ?_, ?_, ?_, ?_⟩
  · intro p hp
    cases hp
  · exact List.nodup_nil
  · intro e he
    cases he
  · intro e he
    cases he
  · intro e he
    cases he
  · intro id t hl hp
    simp [initState, lookupTask] at hl

/-- The invariant holds at every reachable state. -/
theorem inv_reach (s0 s : OState) (h : Reach s0 s) (hin : Inv s0) : Inv s := by
  have h2 : Relation.ReflTransGen Step s0 s := h
  clear h
  induction h2 with
  | refl => exact hin
  | @tail b c hab hbc ih => exact inv_step b c hbc ih

/-- C8 counterexample: submit one task to a fresh orchestrator, then
cancel it.  `cancel_task` leaves the queue entry in place (lines
409-424 never touch `self._queue`), so the reachable resulting state
reports queue depth 1 while zero tasks are pending-and-unheld: the
claimed equality `depth = pendingFree` fails at this state. -/
theorem claim_C8_cex :
    Reach (initState [("api")] [])
      (cancelTask (addTask (initState [("api")] []) ("api") Json.null 0 none 0).1 0).1 ∧
    statusQueueDepth
      (cancelTask (addTask (initState [("api")] []) ("api") Json.null 0 none 0).1 0).1 = 1 ∧
    pendingFree
      (cancelTask (addTask (initState [("api")] []) ("api") Json.null 0 none 0).1 0).1 = 0 := by
  refine ⟨?_, ?_, ?_⟩
  · show Relation.ReflTransGen Step (initState [("api")] [])
      (cancelTask (addTask (initState [("api")] []) ("api") Json.null 0 none 0).1 0).1
    exact Relation.ReflTransGen.tail
      (Relation.ReflTransGen.single
        (Step.submit (initState [("api")] []) ("api") Json.null 0 none 0
          (addTask (initState [("api")] []) ("api") Json.null 0 none 0).1 0 rfl))
      (Step.cancel (addTask (initState [("api")] []) ("api") Json.null 0 none 0).1 0
        (cancelTask (addTask (initState [("api")] []) ("api") Json.null 0 none 0).1 0).1
        true rfl)
  · rfl
  · rfl

/-- C8: at every reachable state the reported queue depth equals the
count of pending tasks not held by any worker PLUS the number of stale
queue entries of cancelled tasks (`cancel_task` leaves its entry in
the heap, so the unqualified equality of the claim fails). -/
theorem claim_C8 (services : List String) (buckets : List (String × TokenBucket))
    (s : OState) (h : Reach (initState services buckets) s) :
    statusQueueDepth s = pendingFree s + staleQ s :=
  depth_eq_of_inv s (inv_reach (initState services buckets) s h (inv_init services buckets))

/-- Witness: the fresh empty orchestrator is reachable from itself and
satisfies the depth equation. -/
theorem claim_C8_witness :
    Reach (initState [] []) (initState [] []) ∧
    statusQueueDepth (initState [] []) =
      pendingFree (initState [] []) + staleQ (initState [] []) :=
  ⟨Relation.ReflTransGen.refl,
    claim_C8 [] [] (initState [] []) Relation.ReflTransGen.refl⟩

end Omndx
